import Mathlib

/-!
# Verification of `faststringmap` (RealA10N/faststringmap)

A shallow embedding of `faststringmap.go` in Lean 4.

Modelling conventions:
* A Go `string` / `[]byte` is a `List Nat` whose elements are intended to be
  bytes (`< 256`); theorems carry this as an explicit hypothesis where needed.
* Go `byte` arithmetic wraps modulo `256` and Go `uint32` (`Uint`) arithmetic
  wraps modulo `2 ^ 32`; both are modelled on `Nat` with explicit `% 256` /
  `% 2 ^ 32` at exactly the places the source performs byte / uint32
  operations.
* Go runtime panics (out-of-range slice indexing, nil dereference) are
  modelled by returning `none`; `some x` is a normal return with result `x`.
* The zero value of the generic type `T` is passed explicitly (argument `z`).
* `sort.Slice` mutates the caller's slice in place; the model computes the
  sorted list with `sortEntries` and `NewMap` consumes that sorted list, so
  `sortEntries entries` is exactly the content of the caller's slice after
  `NewMap` returns.
-/

namespace FastStringMap

/-- `2 ^ 32`, the modulus of Go's `uint32` (`type Uint = uint32`). -/
def uintMod : Nat := 2 ^ 32

/-- Go `byte` subtraction `a - b`: wrap-around modulo 256 (for `a b < 256`). -/
def byteSub (a b : Nat) : Nat := (a + 256 - b) % 256

/-- `mapInternalNode[T]` of the source (it has no field of type `T`):
`nextLo` is a `uint32` index into `store` of the first child slot, `nextLen`
the `byte` number of child slots, `nextOffset` the `byte` value of the first
byte of the child range, and `valueOffset` the `uint32` index+1 into `values`
(0 meaning "no value ends here"). -/
structure mapInternalNode where
  nextLo : Nat
  nextLen : Nat
  nextOffset : Nat
  valueOffset : Nat
deriving Repr, DecidableEq

/-- The zero value of `mapInternalNode`, as produced by `make` in Go. -/
def zeroNode : mapInternalNode := ⟨0, 0, 0, 0⟩

/-- `MapEntry[T]`: a key/value pair supplied to `NewMap`. -/
structure MapEntry (T : Type) where
  Key : List Nat
  Value : T
deriving Repr, DecidableEq

/-- `Map[T]`: the built structure, a flat node array plus a value array. -/
structure Map (T : Type) where
  store : List mapInternalNode
  values : List T
deriving Repr, DecidableEq

/-- `mapBuilder[T]`: nodes are allocated in blocks (`stores`), flattened at
the end; `len` is the total number of nodes allocated so far. -/
structure mapBuilder (T : Type) where
  stores : List (List mapInternalNode)
  values : List T
  len : Nat

/-- Go string comparison `a < b`: byte-lexicographic. -/
def keyLt : List Nat → List Nat → Bool
  | [], [] => false
  | [], _ :: _ => true
  | _ :: _, [] => false
  | x :: xs, y :: ys => x < y || (x == y && keyLt xs ys)

/-- One insertion step of the sort performed by `sort.Slice` in `NewMap`. -/
def insertEntry {T : Type} (e : MapEntry T) : List (MapEntry T) → List (MapEntry T)
  | [] => [e]
  | f :: l => if keyLt f.Key e.Key then f :: insertEntry e l else e :: f :: l

/-- Model of `sort.Slice(entries, ...Key < ...Key)`: the caller's slice is
sorted in place by byte-lexicographic key order, so after `NewMap` returns the
caller's slice holds exactly `sortEntries entries`. -/
def sortEntries {T : Type} : List (MapEntry T) → List (MapEntry T)
  | [] => []
  | e :: l => insertEntry e (sortEntries l)

/-- `mapBuilder.allocateNodes`: append a fresh zero-initialized block of `n`
nodes; the new block's index is `b.stores.length` (before the call) and its
first node's global index in the eventual flattened store is `b.len`. -/
def allocateNodes {T : Type} (b : mapBuilder T) (n : Nat) : mapBuilder T :=
  { b with stores := b.stores ++ [List.replicate n zeroNode], len := b.len + n }

/-- Write the node at offset `off` of block `blk` (a Go write through a
pointer into one of the builder's blocks). Out-of-range access is a panic,
modelled as `none`. -/
def setNode {T : Type} (b : mapBuilder T) (blk off : Nat) (nd : mapInternalNode) :
    Option (mapBuilder T) :=
  match b.stores[blk]? with
  | none => none
  | some blkL =>
    if off < blkL.length then
      some { b with stores := b.stores.set blk (blkL.set off nd) }
    else none

/-- The number of key bytes of `e` not yet consumed at depth `i`. -/
def keySufLen {T : Type} (i : Nat) (e : MapEntry T) : Nat := e.Key.length - i

/-- Termination measure for `makeEntry`: total number of unconsumed key bytes. -/
def entriesMeasure {T : Type} (entries : List (MapEntry T)) (i : Nat) : Nat :=
  (entries.map (keySufLen i)).sum

theorem sum_map_lt_sum_map {α : Type} {l : List α} (f g : α → Nat) (hne : l ≠ [])
    (h : ∀ e ∈ l, f e < g e) : (l.map f).sum < (l.map g).sum := by
  induction l with
  | nil => exact absurd rfl hne
  | cons a l ih =>
    rcases l with _ | ⟨b, l⟩
    · simpa using h a (by simp)
    · have h1 := h a (by simp)
      have h2 := ih (by simp) (fun e he => h e (List.mem_cons_of_mem a he))
      simp only [List.map_cons, List.sum_cons] at h2 ⊢
      omega

theorem sum_map_le_sum_map {α : Type} {l : List α} (f g : α → Nat)
    (h : ∀ e ∈ l, f e ≤ g e) : (l.map f).sum ≤ (l.map g).sum := by
  induction l with
  | nil => simp
  | cons a l ih =>
    have h1 := h a (by simp)
    have h2 := ih (fun e he => h e (List.mem_cons_of_mem a he))
    simp only [List.map_cons, List.sum_cons]
    omega

theorem entriesMeasure_append {T : Type} (l1 l2 : List (MapEntry T)) (i : Nat) :
    entriesMeasure (l1 ++ l2) i = entriesMeasure l1 i + entriesMeasure l2 i := by
  simp [entriesMeasure]

theorem keySufLen_pos {T : Type} {e : MapEntry T} {i b0 : Nat}
    (h : e.Key[i]? = some b0) : 1 ≤ keySufLen i e := by
  have : i < e.Key.length := by
    by_contra hlt
    simp [List.getElem?_eq_none (le_of_not_lt hlt)] at h
  simp [keySufLen]; omega

theorem keySufLen_succ_lt {T : Type} {e : MapEntry T} {i b0 : Nat}
    (h : e.Key[i]? = some b0) : keySufLen (i + 1) e < keySufLen i e := by
  have : i < e.Key.length := by
    by_contra hlt
    simp [List.getElem?_eq_none (le_of_not_lt hlt)] at h
  simp [keySufLen]; omega

theorem entriesMeasure_cons_terminal {T : Type} (e0 : MapEntry T)
    (rest : List (MapEntry T)) (i : Nat) (h : e0.Key.length = i) :
    entriesMeasure (e0 :: rest) i = entriesMeasure rest i := by
  simp [entriesMeasure, keySufLen, h]

/-- Strict decrease when recursing into a byte group at depth `i + 1`. -/
theorem measure_takeWhile_succ_lt {T : Type} (es : List (MapEntry T)) (i b0 : Nat)
    (hne : es.takeWhile (fun e => e.Key[i]? == some b0) ≠ []) :
    entriesMeasure (es.takeWhile (fun e => e.Key[i]? == some b0)) (i + 1) <
      entriesMeasure es i := by
  set p : MapEntry T → Bool := fun e => e.Key[i]? == some b0 with hp
  have hmem : ∀ e ∈ es.takeWhile p, e.Key[i]? = some b0 := by
    intro e he
    have := List.mem_takeWhile_imp he
    simpa [hp] using this
  have h1 : entriesMeasure (es.takeWhile p) (i + 1) < entriesMeasure (es.takeWhile p) i :=
    sum_map_lt_sum_map _ _ hne (fun e he => keySufLen_succ_lt (hmem e he))
  have h2 : entriesMeasure (es.takeWhile p) i ≤ entriesMeasure es i := by
    conv_rhs => rw [← List.takeWhile_append_dropWhile p es]
    rw [entriesMeasure_append]; omega
  omega

/-- Strict decrease when continuing with the entries after a nonempty group. -/
theorem measure_dropWhile_lt {T : Type} (es : List (MapEntry T)) (i b0 : Nat)
    (hne : es.takeWhile (fun e => e.Key[i]? == some b0) ≠ []) :
    entriesMeasure (es.dropWhile (fun e => e.Key[i]? == some b0)) i <
      entriesMeasure es i := by
  set p : MapEntry T → Bool := fun e => e.Key[i]? == some b0 with hp
  have hmem : ∀ e ∈ es.takeWhile p, e.Key[i]? = some b0 := by
    intro e he
    have := List.mem_takeWhile_imp he
    simpa [hp] using this
  have h1 : 1 ≤ entriesMeasure (es.takeWhile p) i := by
    rcases h : es.takeWhile p with _ | ⟨a, l⟩
    · exact absurd h hne
    · have ha : a.Key[i]? = some b0 := hmem a (by rw [h]; simp)
      have := keySufLen_pos ha
      simp [entriesMeasure]
      omega
  have h2 : entriesMeasure es i =
      entriesMeasure (es.takeWhile p) i + entriesMeasure (es.dropWhile p) i := by
    conv_lhs => rw [← List.takeWhile_append_dropWhile p es]
    rw [entriesMeasure_append]
  omega

mutual

/-- Faithful model of `mapBuilder.makeEntry`: consume a possible terminal
entry (a key ending exactly at depth `i`, necessarily first since the entries
are sorted), then build the child block for the remaining entries. The target
node lives at offset `off` of block `blk`. Panics are modelled as `none`. -/
def makeEntry {T : Type} (b : mapBuilder T) (blk off : Nat)
    (entries : List (MapEntry T)) (i : Nat) : Option (mapBuilder T) :=
  match entries with
  | [] => none
  | e0 :: rest =>
    if hterm : e0.Key.length = i then
      makeEntryAux { b with values := b.values ++ [e0.Value] } blk off
        ((b.values.length + 1) % uintMod) rest i
    else
      makeEntryAux b blk off 0 (e0 :: rest) i
termination_by (entriesMeasure entries i, 2)
decreasing_by
  · rw [entriesMeasure_cons_terminal _ _ _ hterm]
    exact Prod.Lex.right _ (by omega)
  · exact Prod.Lex.right _ (by omega)

/-- The part of `mapBuilder.makeEntry` after the terminal entry (if any) has
been consumed: `vOff` is the `valueOffset` this node will carry. -/
def makeEntryAux {T : Type} (b : mapBuilder T) (blk off vOff : Nat)
    (entries : List (MapEntry T)) (i : Nat) : Option (mapBuilder T) :=
  match entries with
  | [] => setNode b blk off ⟨0, 0, 0, vOff⟩
  | e1 :: es =>
    let elast := (e1 :: es).getLast (List.cons_ne_nil e1 es)
    match e1.Key[i]?, elast.Key[i]? with
    | some lo, some hi =>
      let span := (byteSub hi lo + 1) % 256
      match setNode b blk off ⟨b.len % uintMod, span, lo, vOff⟩ with
      | none => none
      | some b2 =>
        let cblk := b2.stores.length
        let b3 := allocateNodes b2 span
        processGroups b3 cblk lo span (e1 :: es) i
    | _, _ => none
termination_by (entriesMeasure entries i, 1)
decreasing_by
  exact Prod.Lex.right _ (by omega)

/-- The loop of `mapBuilder.makeEntry` over maximal runs of entries sharing
the same byte at depth `i`: each run recurses into its child slot
`byteSub b0 lo` of block `blk` (of length `bsz`). An out-of-range child slot
(possible when the 8-bit span computation wrapped) is a panic: `none`. -/
def processGroups {T : Type} (b : mapBuilder T) (blk lo bsz : Nat)
    (entries : List (MapEntry T)) (i : Nat) : Option (mapBuilder T) :=
  match entries with
  | [] => some b
  | e0 :: rest0 =>
    if hb : (e0.Key[i]?).isSome then
      let b0 := (e0.Key[i]?).get hb
      let grp := (e0 :: rest0).takeWhile (fun e => e.Key[i]? == some b0)
      let rest := (e0 :: rest0).dropWhile (fun e => e.Key[i]? == some b0)
      let childIdx := byteSub b0 lo
      if childIdx < bsz then
        match makeEntry b blk childIdx grp (i + 1) with
        | none => none
        | some b2 => processGroups b2 blk lo bsz rest i
      else none
    else none
termination_by (entriesMeasure entries i, 0)
decreasing_by
  · apply Prod.Lex.left
    apply measure_takeWhile_succ_lt
    rw [List.takeWhile_cons_of_pos (by simp)]
    simp
  · apply Prod.Lex.left
    apply measure_dropWhile_lt
    rw [List.takeWhile_cons_of_pos (by simp)]
    simp

end

/-- `mapBuilder.toMap`: flatten the blocks, in allocation order, into the
final node array. -/
def toMap {T : Type} (b : mapBuilder T) : Map T := ⟨b.stores.flatten, b.values⟩

/-- `NewMap`: sort the entries in place, allocate the root node (block 0),
recursively build, and flatten. A panic during the build is `none`. -/
def NewMap {T : Type} (entries : List (MapEntry T)) : Option (Map T) :=
  let sorted := sortEntries entries
  let b1 := allocateNodes (⟨[], [], 0⟩ : mapBuilder T) 1
  match sorted with
  | [] => some (toMap b1)
  | e :: l =>
    match makeEntry b1 0 0 (e :: l) 0 with
    | none => none
    | some b2 => some (toMap b2)

/-- The loop of `Map.IndexString`, iterating over positions `i` of the input
string. Reading a child slot outside the store is a panic: `none`. -/
def indexStringLoop {T : Type} (m : Map T) (s : List Nat) (i : Nat)
    (bv : mapInternalNode) : Option Nat :=
  if h : i < s.length then
    let b := s[i]
    if b < bv.nextOffset then some 0
    else
      let ni := b - bv.nextOffset
      if bv.nextLen ≤ ni then some 0
      else
        match m.store[(bv.nextLo + ni) % uintMod]? with
        | none => none
        | some bv2 => indexStringLoop m s (i + 1) bv2
  else
    if bv.valueOffset = 0 then some 0 else some bv.valueOffset
termination_by s.length - i

/-- `Map.IndexString`. Taking `&m.store[0]` of an empty store is a panic:
`none`. -/
def IndexString {T : Type} (m : Map T) (s : List Nat) : Option Nat :=
  match m.store[0]? with
  | none => none
  | some bv => indexStringLoop m s 0 bv

/-- The loop of `Map.IndexBytes`, structural over the byte slice. -/
def indexBytesLoop {T : Type} (m : Map T) (bv : mapInternalNode) :
    List Nat → Option Nat
  | [] => if bv.valueOffset = 0 then some 0 else some bv.valueOffset
  | b :: rest =>
    if b < bv.nextOffset then some 0
    else
      let ni := b - bv.nextOffset
      if bv.nextLen ≤ ni then some 0
      else
        match m.store[(bv.nextLo + ni) % uintMod]? with
        | none => none
        | some bv2 => indexBytesLoop m bv2 rest

/-- `Map.IndexBytes`. -/
def IndexBytes {T : Type} (m : Map T) (s : List Nat) : Option Nat :=
  match m.store[0]? with
  | none => none
  | some bv => indexBytesLoop m bv s

/-- `Map.AtIndex`: `z` is the zero value of `T`; `Uint(len(m.values))`
truncates the length to 32 bits. -/
def AtIndex {T : Type} (m : Map T) (z : T) (index : Nat) : T × Bool :=
  if index ≠ 0 ∧ index - 1 < m.values.length % uintMod then
    (m.values.getD (index - 1) z, true)
  else (z, false)

/-- `Map.LookupString`. -/
def LookupString {T : Type} (m : Map T) (z : T) (s : List Nat) :
    Option (T × Bool) :=
  (IndexString m s).map (AtIndex m z)

/-- `Map.LookupBytes`. -/
def LookupBytes {T : Type} (m : Map T) (z : T) (s : List Nat) :
    Option (T × Bool) :=
  (IndexBytes m s).map (AtIndex m z)

/-- The content of the caller's `entries` slice after `NewMap` returns:
`sort.Slice` sorted it in place. -/
def entriesAfterNewMap {T : Type} (entries : List (MapEntry T)) :
    List (MapEntry T) := sortEntries entries

/-! ## Infrastructure: the flattened view of the builder -/

/-- The flattened node array the builder would produce if `toMap` ran now. -/
def flatB {T : Type} (b : mapBuilder T) : List mapInternalNode := b.stores.flatten

/-- Builder well-formedness: `len` counts the nodes allocated so far. -/
def WFB {T : Type} (b : mapBuilder T) : Prop := b.len = (flatB b).length

/-- Global index, in the flattened array, of the first node of block `blk`. -/
def blockStart {T : Type} (b : mapBuilder T) (blk : Nat) : Nat :=
  ((b.stores.take blk).map List.length).sum

theorem flatten_getElem? {α : Type} (L : List (List α)) (blk off : Nat)
    (blkL : List α) (hblk : L[blk]? = some blkL) (hoff : off < blkL.length) :
    L.flatten[((L.take blk).map List.length).sum + off]? = blkL[off]? := by
  induction L generalizing blk with
  | nil => simp at hblk
  | cons B L ih =>
    cases blk with
    | zero =>
      simp only [List.getElem?_cons_zero, Option.some_inj] at hblk
      subst hblk
      simp [List.getElem?_append, hoff]
    | succ blk =>
      simp only [List.getElem?_cons_succ] at hblk
      simp only [List.take_succ_cons, List.map_cons, List.sum_cons, List.flatten_cons]
      rw [List.getElem?_append, if_neg (by omega)]
      have harith : B.length + ((L.take blk).map List.length).sum + off - B.length =
          ((L.take blk).map List.length).sum + off := by omega
      rw [harith]
      exact ih blk hblk

theorem flatten_set {α : Type} (L : List (List α)) (blk off : Nat) (blkL : List α)
    (nd : α) (hblk : L[blk]? = some blkL) (hoff : off < blkL.length) :
    (L.set blk (blkL.set off nd)).flatten =
      L.flatten.set (((L.take blk).map List.length).sum + off) nd := by
  induction L generalizing blk with
  | nil => simp at hblk
  | cons B L ih =>
    cases blk with
    | zero =>
      simp only [List.getElem?_cons_zero, Option.some_inj] at hblk
      subst hblk
      simp only [List.set_cons_zero, List.flatten_cons, List.take_zero, List.map_nil,
        List.sum_nil, Nat.zero_add]
      rw [List.set_append, if_pos hoff]
    | succ blk =>
      simp only [List.getElem?_cons_succ] at hblk
      simp only [List.set_cons_succ, List.flatten_cons, List.take_succ_cons,
        List.map_cons, List.sum_cons]
      rw [ih blk hblk, List.set_append, if_neg (by omega)]
      have harith : B.length + ((L.take blk).map List.length).sum + off - B.length =
          ((L.take blk).map List.length).sum + off := by omega
      rw [harith]

theorem blockStart_block_le {α : Type} (L : List (List α)) (blk : Nat)
    (blkL : List α) (hblk : L[blk]? = some blkL) :
    ((L.take blk).map List.length).sum + blkL.length ≤ L.flatten.length := by
  induction L generalizing blk with
  | nil => simp at hblk
  | cons B L ih =>
    cases blk with
    | zero =>
      simp only [List.getElem?_cons_zero, Option.some_inj] at hblk
      subst hblk
      simp only [List.take_zero, List.map_nil, List.sum_nil, Nat.zero_add,
        List.flatten_cons, List.length_append]
      omega
    | succ blk =>
      simp only [List.getElem?_cons_succ] at hblk
      have := ih blk hblk
      simp only [List.take_succ_cons, List.map_cons, List.sum_cons,
        List.flatten_cons, List.length_append]
      omega

theorem set_getElem?_self {α : Type} {L : List α} {n : Nat} {a : α}
    (h : L[n]? = some a) : L.set n a = L := by
  induction L generalizing n with
  | nil => simp at h
  | cons B L ih =>
    cases n with
    | zero =>
      simp only [List.getElem?_cons_zero, Option.some_inj] at h
      subst h; rfl
    | succ n =>
      simp only [List.getElem?_cons_succ] at h
      simp [List.set_cons_succ, ih h]

/-- How one builder state evolves into a later one: nodes and values are only
appended, existing blocks keep their length (so `blockStart` is stable), and
well-formedness is preserved. -/
structure BuildStep {T : Type} (b b' : mapBuilder T) : Prop where
  len_le : b.len ≤ b'.len
  nblocks_le : b.stores.length ≤ b'.stores.length
  blockLens : (b'.stores.take b.stores.length).map List.length =
    b.stores.map List.length
  values_ext : ∃ δ, b'.values = b.values ++ δ
  wfb : WFB b → WFB b'

theorem BuildStep.refl {T : Type} (b : mapBuilder T) : BuildStep b b :=
  ⟨Nat.le_refl _, Nat.le_refl _, by simp, ⟨[], by simp⟩, fun h => h⟩

theorem BuildStep.trans {T : Type} {b1 b2 b3 : mapBuilder T}
    (h12 : BuildStep b1 b2) (h23 : BuildStep b2 b3) : BuildStep b1 b3 := by
  refine ⟨Nat.le_trans h12.len_le h23.len_le,
    Nat.le_trans h12.nblocks_le h23.nblocks_le, ?_, ?_, fun h => h23.wfb (h12.wfb h)⟩
  · have e2 := h12.blockLens
    have e3 := h23.blockLens
    have : (b3.stores.take b1.stores.length).map List.length =
        ((b3.stores.take b2.stores.length).take b1.stores.length).map List.length := by
      rw [List.take_take, Nat.min_eq_left h12.nblocks_le]
    rw [this, List.map_take, e3, ← List.map_take, e2]
  · obtain ⟨d1, hd1⟩ := h12.values_ext
    obtain ⟨d2, hd2⟩ := h23.values_ext
    exact ⟨d1 ++ d2, by rw [hd2, hd1, List.append_assoc]⟩

theorem BuildStep.blockStart_eq {T : Type} {b b' : mapBuilder T}
    (h : BuildStep b b') {blk : Nat} (hblk : blk ≤ b.stores.length) :
    blockStart b' blk = blockStart b blk := by
  rw [blockStart, blockStart]
  have : b'.stores.take blk = (b'.stores.take b.stores.length).take blk := by
    rw [List.take_take, Nat.min_eq_left hblk]
  rw [this, List.map_take, h.blockLens, ← List.map_take]

/-- Characterization of a successful `setNode`. -/
theorem setNode_eq_some {T : Type} {b : mapBuilder T} {blk off : Nat}
    {nd : mapInternalNode} {b' : mapBuilder T} :
    setNode b blk off nd = some b' ↔
      ∃ blkL, b.stores[blk]? = some blkL ∧ off < blkL.length ∧
        b' = { b with stores := b.stores.set blk (blkL.set off nd) } := by
  rw [setNode]
  cases h : b.stores[blk]? with
  | none => simp
  | some blkL =>
    by_cases hoff : off < blkL.length
    · simp only [hoff, if_true, Option.some_inj]
      constructor
      · intro he; exact ⟨blkL, rfl, hoff, he.symm⟩
      · rintro ⟨blkL2, hb2, -, he⟩
        subst hb2
        exact he.symm
    · simp only [hoff, if_false]
      constructor
      · intro he; exact absurd he (by simp)
      · rintro ⟨blkL2, hb2, hoff2, -⟩
        obtain rfl : blkL = blkL2 := Option.some_inj.mp hb2
        exact absurd hoff2 hoff

theorem setNode_flat {T : Type} {b : mapBuilder T} {blk off : Nat}
    {nd : mapInternalNode} {b' : mapBuilder T}
    (h : setNode b blk off nd = some b') :
    flatB b' = (flatB b).set (blockStart b blk + off) nd ∧
      b'.len = b.len ∧ b'.values = b.values ∧
      b'.stores.length = b.stores.length ∧
      blockStart b blk + off < (flatB b).length ∧
      BuildStep b b' := by
  obtain ⟨blkL, hblk, hoff, he⟩ := setNode_eq_some.mp h
  subst he
  have hflat : flatB { b with stores := b.stores.set blk (blkL.set off nd) } =
      (flatB b).set (blockStart b blk + off) nd :=
    flatten_set b.stores blk off blkL nd hblk hoff
  have hlt : blockStart b blk + off < (flatB b).length := by
    have := blockStart_block_le b.stores blk blkL hblk
    rw [blockStart]; rw [flatB]; omega
  refine ⟨hflat, rfl, rfl, by simp, hlt, ?_⟩
  refine ⟨Nat.le_refl _, by simp, ?_, ⟨[], by simp⟩, ?_⟩
  · dsimp only
    have htake : (b.stores.set blk (blkL.set off nd)).take b.stores.length =
        b.stores.set blk (blkL.set off nd) :=
      List.take_of_length_le (by rw [List.length_set])
    rw [htake, List.map_set, List.length_set]
    apply set_getElem?_self
    rw [List.getElem?_map, hblk]
    rfl
  · intro hw
    rw [WFB] at hw ⊢
    rw [hflat, List.length_set]
    exact hw

theorem allocateNodes_flat {T : Type} (b : mapBuilder T) (n : Nat) :
    flatB (allocateNodes b n) = flatB b ++ List.replicate n zeroNode ∧
      (allocateNodes b n).len = b.len + n ∧
      (allocateNodes b n).values = b.values ∧
      (allocateNodes b n).stores.length = b.stores.length + 1 ∧
      BuildStep b (allocateNodes b n) := by
  refine ⟨?_, rfl, rfl, by simp [allocateNodes], ?_⟩
  · simp [flatB, allocateNodes, List.flatten_append]
  · refine ⟨by simp [allocateNodes], by simp [allocateNodes], ?_,
      ⟨[], by simp [allocateNodes]⟩, ?_⟩
    · dsimp only [allocateNodes]
      rw [List.take_append_of_le_length (Nat.le_refl _), List.take_length]
    · intro hw
      rw [WFB] at hw ⊢
      have : flatB (allocateNodes b n) = flatB b ++ List.replicate n zeroNode := by
        simp [flatB, allocateNodes, List.flatten_append]
      rw [this, List.length_append, List.length_replicate]
      dsimp only [allocateNodes]
      omega

/-- The first node of the block allocated by `allocateNodes` sits at global
index `b.len` (for a well-formed builder). -/
theorem blockStart_allocate {T : Type} (b : mapBuilder T) (n : Nat) :
    blockStart (allocateNodes b n) b.stores.length = (flatB b).length := by
  rw [blockStart]
  dsimp only [allocateNodes]
  rw [List.take_append_of_le_length (Nat.le_refl _), List.take_length, flatB,
    List.length_flatten]

theorem allocate_block_getElem {T : Type} (b : mapBuilder T) (n : Nat) :
    (allocateNodes b n).stores[b.stores.length]? = some (List.replicate n zeroNode) := by
  dsimp only [allocateNodes]
  exact List.getElem?_concat_length _ _

/-- The loop of `IndexBytes`, abstracted over the bare node array (the loop
reads nothing else of the `Map`). -/
def lookFrom (S : List mapInternalNode) (bv : mapInternalNode) : List Nat → Option Nat
  | [] => if bv.valueOffset = 0 then some 0 else some bv.valueOffset
  | x :: rest =>
    if x < bv.nextOffset then some 0
    else
      let ni := x - bv.nextOffset
      if bv.nextLen ≤ ni then some 0
      else
        match S[(bv.nextLo + ni) % uintMod]? with
        | none => none
        | some bv2 => lookFrom S bv2 rest

theorem indexBytesLoop_eq_lookFrom {T : Type} (m : Map T)
    (bv : mapInternalNode) (s : List Nat) :
    indexBytesLoop m bv s = lookFrom m.store bv s := by
  induction s generalizing bv with
  | nil => rfl
  | cons x rest ih =>
    rw [indexBytesLoop, lookFrom]
    by_cases h1 : x < bv.nextOffset
    · simp [h1]
    · simp only [h1, if_false]
      by_cases h2 : bv.nextLen ≤ x - bv.nextOffset
      · simp [h2]
      · simp only [h2, if_false]
        cases m.store[(bv.nextLo + (x - bv.nextOffset)) % uintMod]? with
        | none => rfl
        | some bv2 => exact ih bv2

/-- A fresh zero node rejects every key: lookup from it returns index 0. -/
theorem lookFrom_zeroNode (S : List mapInternalNode) (s : List Nat) :
    lookFrom S zeroNode s = some 0 := by
  cases s with
  | nil => rfl
  | cons x rest =>
    rw [lookFrom]
    simp [zeroNode]

/-- The bounds invariant of the builder: every node's child range lies below
the allocation frontier `b.len`. -/
def INVB {T : Type} (b : mapBuilder T) : Prop :=
  ∀ nd ∈ flatB b, nd.nextLo + nd.nextLen ≤ b.len

/-! ## Infrastructure: propositional equations for the builder functions -/

theorem makeEntry_nil {T : Type} (b : mapBuilder T) (blk off i : Nat) :
    makeEntry b blk off [] i = none := by
  simp [makeEntry]

theorem makeEntry_cons_term {T : Type} (b : mapBuilder T) (blk off i : Nat)
    (e0 : MapEntry T) (rest : List (MapEntry T)) (h : e0.Key.length = i) :
    makeEntry b blk off (e0 :: rest) i =
      makeEntryAux { b with values := b.values ++ [e0.Value] } blk off
        ((b.values.length + 1) % uintMod) rest i := by
  rw [makeEntry, dif_pos h]

theorem makeEntry_cons_nonterm {T : Type} (b : mapBuilder T) (blk off i : Nat)
    (e0 : MapEntry T) (rest : List (MapEntry T)) (h : ¬ e0.Key.length = i) :
    makeEntry b blk off (e0 :: rest) i = makeEntryAux b blk off 0 (e0 :: rest) i := by
  rw [makeEntry, dif_neg h]

theorem makeEntryAux_nil {T : Type} (b : mapBuilder T) (blk off vOff i : Nat) :
    makeEntryAux b blk off vOff [] i = setNode b blk off ⟨0, 0, 0, vOff⟩ := by
  simp [makeEntryAux]

theorem makeEntryAux_cons {T : Type} (b : mapBuilder T) (blk off vOff i : Nat)
    (e1 : MapEntry T) (es : List (MapEntry T)) {lo hi : Nat}
    (hlo : e1.Key[i]? = some lo)
    (hhi : ((e1 :: es).getLast (List.cons_ne_nil e1 es)).Key[i]? = some hi) :
    makeEntryAux b blk off vOff (e1 :: es) i =
      match setNode b blk off
          ⟨b.len % uintMod, (byteSub hi lo + 1) % 256, lo, vOff⟩ with
      | none => none
      | some b2 =>
        processGroups (allocateNodes b2 ((byteSub hi lo + 1) % 256))
          b2.stores.length lo ((byteSub hi lo + 1) % 256) (e1 :: es) i := by
  rw [makeEntryAux]
  simp only [hlo, hhi]

theorem makeEntryAux_cons_bad_lo {T : Type} (b : mapBuilder T)
    (blk off vOff i : Nat) (e1 : MapEntry T) (es : List (MapEntry T))
    (hlo : e1.Key[i]? = none) :
    makeEntryAux b blk off vOff (e1 :: es) i = none := by
  rw [makeEntryAux]
  simp only [hlo]

theorem makeEntryAux_cons_bad_hi {T : Type} (b : mapBuilder T)
    (blk off vOff i : Nat) (e1 : MapEntry T) (es : List (MapEntry T))
    (hhi : ((e1 :: es).getLast (List.cons_ne_nil e1 es)).Key[i]? = none) :
    makeEntryAux b blk off vOff (e1 :: es) i = none := by
  rw [makeEntryAux]
  simp only [hhi]
  cases e1.Key[i]? <;> rfl

theorem processGroups_nil {T : Type} (b : mapBuilder T) (blk lo bsz i : Nat) :
    processGroups b blk lo bsz [] i = some b := by
  simp [processGroups]

theorem processGroups_cons {T : Type} (b : mapBuilder T) (blk lo bsz i : Nat)
    (e0 : MapEntry T) (rest0 : List (MapEntry T)) {b0 : Nat}
    (h : e0.Key[i]? = some b0) :
    processGroups b blk lo bsz (e0 :: rest0) i =
      (if byteSub b0 lo < bsz then
        match makeEntry b blk (byteSub b0 lo)
            ((e0 :: rest0).takeWhile (fun e => e.Key[i]? == some b0)) (i + 1) with
        | none => none
        | some b2 =>
          processGroups b2 blk lo bsz
            ((e0 :: rest0).dropWhile (fun e => e.Key[i]? == some b0)) i
      else none) := by
  rw [processGroups]
  simp only [h, Option.isSome_some, Option.get_some, dite_true]

theorem processGroups_cons_bad {T : Type} (b : mapBuilder T) (blk lo bsz i : Nat)
    (e0 : MapEntry T) (rest0 : List (MapEntry T)) (h : e0.Key[i]? = none) :
    processGroups b blk lo bsz (e0 :: rest0) i = none := by
  rw [processGroups]
  simp only [h, Option.isSome_none]
  rfl

/-! ## The frame/evolution theorem of the builder -/

/-- Frame conclusions for a `makeEntry`/`makeEntryAux` call writing the node
at `(blk, off)`: on success the builder only grows, every old node other than
the target keeps its value, and the bounds invariant is preserved. -/
def frameME {T : Type} (b : mapBuilder T) (blk off : Nat)
    (r : Option (mapBuilder T)) : Prop :=
  ∀ b', r = some b' → WFB b →
    BuildStep b b' ∧
    (∀ g, g < b.len → g ≠ blockStart b blk + off →
      (flatB b')[g]? = (flatB b)[g]?) ∧
    (INVB b → INVB b')

/-- Frame conclusions for `processGroups` on block `blk`: old nodes that are
not a written child slot (`blockStart b blk + byteSub b0 lo` for some next
byte `b0` occurring in `entries` at depth `i`) keep their value. -/
def framePG {T : Type} (b : mapBuilder T) (blk lo bsz : Nat)
    (entries : List (MapEntry T)) (i : Nat) (r : Option (mapBuilder T)) : Prop :=
  ∀ b', r = some b' → WFB b → blk < b.stores.length →
    BuildStep b b' ∧
    (∀ g, g < b.len →
      (∀ e ∈ entries, ∀ b0, e.Key[i]? = some b0 → byteSub b0 lo < bsz →
        g ≠ blockStart b blk + byteSub b0 lo) →
      (flatB b')[g]? = (flatB b)[g]?) ∧
    (INVB b → INVB b')

theorem frameCase1 {T : Type} (b : mapBuilder T) (blk off i : Nat) :
    frameME b blk off (makeEntry b blk off [] i) := by
  intro b' hres
  rw [makeEntry_nil] at hres
  exact absurd hres (by simp)

theorem frameCase2 {T : Type} (b : mapBuilder T) (blk off : Nat) (f : MapEntry T)
    (l : List (MapEntry T))
    (ih : frameME { b with values := b.values ++ [f.Value] } blk off
      (makeEntryAux { b with values := b.values ++ [f.Value] } blk off
        ((b.values.length + 1) % uintMod) l f.Key.length)) :
    frameME b blk off (makeEntry b blk off (f :: l) f.Key.length) := by
  intro b' hres hWF
  rw [makeEntry_cons_term _ _ _ _ _ _ rfl] at hres
  obtain ⟨hstep, hframe, hinv⟩ := ih b' hres hWF
  have hstep01 : BuildStep b { b with values := b.values ++ [f.Value] } :=
    ⟨Nat.le_refl _, Nat.le_refl _, by simp, ⟨[f.Value], rfl⟩, fun h => h⟩
  exact ⟨hstep01.trans hstep, hframe, hinv⟩

theorem frameCase3 {T : Type} (b : mapBuilder T) (blk off i : Nat) (f : MapEntry T)
    (l : List (MapEntry T)) (hne : ¬ f.Key.length = i)
    (ih : frameME b blk off (makeEntryAux b blk off 0 (f :: l) i)) :
    frameME b blk off (makeEntry b blk off (f :: l) i) := by
  intro b' hres hWF
  rw [makeEntry_cons_nonterm _ _ _ _ _ _ hne] at hres
  exact ih b' hres hWF

theorem frameCase4 {T : Type} (b : mapBuilder T) (blk off vOff i : Nat) :
    frameME b blk off (makeEntryAux b blk off vOff [] i) := by
  intro b' hres hWF
  rw [makeEntryAux_nil] at hres
  obtain ⟨hflat, hlen, -, -, -, hstep⟩ := setNode_flat hres
  refine ⟨hstep, ?_, ?_⟩
  · intro g hg hgne
    rw [hflat]
    exact List.getElem?_set_ne (Ne.symm hgne)
  · intro hI nd hmem
    rw [hflat] at hmem
    rw [hlen]
    rcases List.mem_or_eq_of_mem_set hmem with hold | hnew
    · exact hI nd hold
    · subst hnew; simp

theorem frameCase5 {T : Type} (b : mapBuilder T) (blk off vOff i : Nat)
    (f : MapEntry T) (l : List (MapEntry T)) (lo hi : Nat)
    (hhi : ((f :: l).getLast (List.cons_ne_nil f l)).Key[i]? = some hi)
    (hlo : f.Key[i]? = some lo)
    (hset : setNode b blk off
      ⟨b.len % uintMod, (byteSub hi lo + 1) % 256, lo, vOff⟩ = none) :
    frameME b blk off (makeEntryAux b blk off vOff (f :: l) i) := by
  intro b' hres
  rw [makeEntryAux_cons _ _ _ _ _ _ _ hlo hhi, hset] at hres
  exact absurd hres (by simp)

theorem frameCase6 {T : Type} (b : mapBuilder T) (blk off vOff i : Nat)
    (f : MapEntry T) (l : List (MapEntry T)) (lo hi : Nat)
    (hhi : ((f :: l).getLast (List.cons_ne_nil f l)).Key[i]? = some hi)
    (hlo : f.Key[i]? = some lo) (b2 : mapBuilder T)
    (hset : setNode b blk off
      ⟨b.len % uintMod, (byteSub hi lo + 1) % 256, lo, vOff⟩ = some b2)
    (ih : framePG (allocateNodes b2 ((byteSub hi lo + 1) % 256))
      b2.stores.length lo ((byteSub hi lo + 1) % 256) (f :: l) i
      (processGroups (allocateNodes b2 ((byteSub hi lo + 1) % 256))
        b2.stores.length lo ((byteSub hi lo + 1) % 256) (f :: l) i)) :
    frameME b blk off (makeEntryAux b blk off vOff (f :: l) i) := by
  intro b' hres hWF
  rw [makeEntryAux_cons _ _ _ _ _ _ _ hlo hhi, hset] at hres
  obtain ⟨hflat2, hlen2, -, -, hlt2, hstep2⟩ := setNode_flat hset
  have hWF2 : WFB b2 := hstep2.wfb hWF
  obtain ⟨hflat3, hlen3, -, hblocks3, hstep3⟩ :=
    allocateNodes_flat b2 ((byteSub hi lo + 1) % 256)
  have hWF3 : WFB (allocateNodes b2 ((byteSub hi lo + 1) % 256)) := hstep3.wfb hWF2
  have hcblk : b2.stores.length <
      (allocateNodes b2 ((byteSub hi lo + 1) % 256)).stores.length := by
    rw [hblocks3]; omega
  obtain ⟨hstepPG, hframePG, hinvPG⟩ := ih b' hres hWF3 hcblk
  have hlen2eq : (flatB b2).length = (flatB b).length := by
    rw [hflat2, List.length_set]
  have hbase : blockStart (allocateNodes b2 ((byteSub hi lo + 1) % 256))
      b2.stores.length = b.len := by
    rw [blockStart_allocate, hlen2eq, hWF]
  refine ⟨(hstep2.trans hstep3).trans hstepPG, ?_, ?_⟩
  · intro g hg hgne
    have hga : (flatB b')[g]? =
        (flatB (allocateNodes b2 ((byteSub hi lo + 1) % 256)))[g]? := by
      apply hframePG g
      · rw [hlen3, hlen2]; omega
      · intro e he b0 hb0 hcs
        rw [hbase]
        omega
    rw [hga, hflat3,
      List.getElem?_append_left (by rw [hlen2eq, ← hWF]; exact hg), hflat2]
    exact List.getElem?_set_ne (Ne.symm hgne)
  · intro hI
    apply hinvPG
    intro nd hmem
    rw [hflat3] at hmem
    rw [hlen3, hlen2]
    rcases List.mem_append.mp hmem with hold | hnew
    · rw [hflat2] at hold
      rcases List.mem_or_eq_of_mem_set hold with hb | hb
      · have := hI nd hb
        omega
      · subst hb
        have := Nat.mod_le b.len uintMod
        simp only [hWF]
        omega
    · rw [List.eq_of_mem_replicate hnew]
      simp [zeroNode]

theorem frameCase7 {T : Type} (b : mapBuilder T) (blk off vOff i : Nat)
    (f : MapEntry T) (l : List (MapEntry T))
    (hbad : ∀ (lo hi : Nat), f.Key[i]? = some lo →
      ((f :: l).getLast (List.cons_ne_nil f l)).Key[i]? = some hi → False) :
    frameME b blk off (makeEntryAux b blk off vOff (f :: l) i) := by
  intro b' hres
  exfalso
  cases hk1 : f.Key[i]? with
  | none =>
    rw [makeEntryAux_cons_bad_lo _ _ _ _ _ _ _ hk1] at hres
    exact absurd hres (by simp)
  | some lo =>
    cases hk2 : ((f :: l).getLast (List.cons_ne_nil f l)).Key[i]? with
    | none =>
      rw [makeEntryAux_cons_bad_hi _ _ _ _ _ _ _ hk2] at hres
      exact absurd hres (by simp)
    | some hi => exact hbad lo hi hk1 hk2

theorem frameCase8 {T : Type} (b : mapBuilder T) (blk lo bsz i : Nat) :
    framePG b blk lo bsz [] i (processGroups b blk lo bsz [] i) := by
  intro b' hres hWF hblk
  rw [processGroups_nil] at hres
  obtain rfl : b = b' := Option.some_inj.mp hres
  exact ⟨BuildStep.refl b, fun g _ _ => rfl, fun h => h⟩

theorem frameCase9 {T : Type} (b : mapBuilder T) (blk lo bsz i : Nat)
    (f : MapEntry T) (l : List (MapEntry T)) (h : (f.Key[i]?).isSome = true)
    (hlt : byteSub (f.Key[i]?.get h) lo < bsz)
    (hME : makeEntry b blk (byteSub (f.Key[i]?.get h) lo)
      ((f :: l).takeWhile (fun e => e.Key[i]? == some (f.Key[i]?.get h)))
      (i + 1) = none)
    (_ih : frameME b blk (byteSub (f.Key[i]?.get h) lo)
      (makeEntry b blk (byteSub (f.Key[i]?.get h) lo)
        ((f :: l).takeWhile (fun e => e.Key[i]? == some (f.Key[i]?.get h)))
        (i + 1))) :
    framePG b blk lo bsz (f :: l) i (processGroups b blk lo bsz (f :: l) i) := by
  intro b' hres
  have h0 : f.Key[i]? = some (f.Key[i]?.get h) := (Option.some_get h).symm
  rw [processGroups_cons _ _ _ _ _ _ _ h0, if_pos hlt, hME] at hres
  exact absurd hres (by simp)

theorem frameCase10 {T : Type} (b : mapBuilder T) (blk lo bsz i : Nat)
    (f : MapEntry T) (l : List (MapEntry T)) (h : (f.Key[i]?).isSome = true)
    (hlt : byteSub (f.Key[i]?.get h) lo < bsz) (b2 : mapBuilder T)
    (hME : makeEntry b blk (byteSub (f.Key[i]?.get h) lo)
      ((f :: l).takeWhile (fun e => e.Key[i]? == some (f.Key[i]?.get h)))
      (i + 1) = some b2)
    (ih1 : frameME b blk (byteSub (f.Key[i]?.get h) lo)
      (makeEntry b blk (byteSub (f.Key[i]?.get h) lo)
        ((f :: l).takeWhile (fun e => e.Key[i]? == some (f.Key[i]?.get h)))
        (i + 1)))
    (ih3 : framePG b2 blk lo bsz
      ((f :: l).dropWhile (fun e => e.Key[i]? == some (f.Key[i]?.get h))) i
      (processGroups b2 blk lo bsz
        ((f :: l).dropWhile (fun e => e.Key[i]? == some (f.Key[i]?.get h))) i)) :
    framePG b blk lo bsz (f :: l) i (processGroups b blk lo bsz (f :: l) i) := by
  intro b' hres hWF hblk
  have h0 : f.Key[i]? = some (f.Key[i]?.get h) := (Option.some_get h).symm
  rw [processGroups_cons _ _ _ _ _ _ _ h0, if_pos hlt, hME] at hres
  obtain ⟨hstepG, hframeG, hinvG⟩ := ih1 b2 hME hWF
  have hWF2 : WFB b2 := hstepG.wfb hWF
  have hblk2 : blk < b2.stores.length := lt_of_lt_of_le hblk hstepG.nblocks_le
  obtain ⟨hstepR, hframeR, hinvR⟩ := ih3 b' hres hWF2 hblk2
  refine ⟨hstepG.trans hstepR, ?_, fun hI => hinvR (hinvG hI)⟩
  intro g hg hcrit
  have hstable : blockStart b2 blk = blockStart b blk :=
    hstepG.blockStart_eq (Nat.le_of_lt hblk)
  have hgR : (flatB b')[g]? = (flatB b2)[g]? := by
    apply hframeR g (lt_of_lt_of_le hg hstepG.len_le)
    intro e he b0 hb0 hcs
    rw [hstable]
    exact hcrit e ((List.dropWhile_sublist _).subset he) b0 hb0 hcs
  have hgG : (flatB b2)[g]? = (flatB b)[g]? := by
    apply hframeG g hg
    exact hcrit f (by simp) _ h0 hlt
  exact hgR.trans hgG

theorem frameCase11 {T : Type} (b : mapBuilder T) (blk lo bsz i : Nat)
    (f : MapEntry T) (l : List (MapEntry T)) (h : (f.Key[i]?).isSome = true)
    (hnlt : ¬ byteSub (f.Key[i]?.get h) lo < bsz) :
    framePG b blk lo bsz (f :: l) i (processGroups b blk lo bsz (f :: l) i) := by
  intro b' hres
  have h0 : f.Key[i]? = some (f.Key[i]?.get h) := (Option.some_get h).symm
  rw [processGroups_cons _ _ _ _ _ _ _ h0, if_neg hnlt] at hres
  exact absurd hres (by simp)

theorem frameCase12 {T : Type} (b : mapBuilder T) (blk lo bsz i : Nat)
    (f : MapEntry T) (l : List (MapEntry T)) (h : ¬ (f.Key[i]?).isSome = true) :
    framePG b blk lo bsz (f :: l) i (processGroups b blk lo bsz (f :: l) i) := by
  intro b' hres
  have h0 : f.Key[i]? = none := Option.not_isSome_iff_eq_none.mp h
  rw [processGroups_cons_bad _ _ _ _ _ _ _ h0] at hres
  exact absurd hres (by simp)

/-- The frame theorem for `makeEntry`. -/
theorem makeEntry_frame {T : Type} (b : mapBuilder T) (blk off : Nat)
    (entries : List (MapEntry T)) (i : Nat) :
    frameME b blk off (makeEntry b blk off entries i) :=
  makeEntry.induct
    (fun b blk off entries i => frameME b blk off (makeEntry b blk off entries i))
    (fun b blk off vOff entries i =>
      frameME b blk off (makeEntryAux b blk off vOff entries i))
    (fun b blk lo bsz entries i =>
      framePG b blk lo bsz entries i (processGroups b blk lo bsz entries i))
    frameCase1 frameCase2 frameCase3 frameCase4 frameCase5 frameCase6 frameCase7
    frameCase8 frameCase9 frameCase10 frameCase11 frameCase12 b blk off entries i

/-- The frame theorem for `processGroups`. -/
theorem processGroups_frame {T : Type} (b : mapBuilder T) (blk lo bsz : Nat)
    (entries : List (MapEntry T)) (i : Nat) :
    framePG b blk lo bsz entries i (processGroups b blk lo bsz entries i) :=
  processGroups.induct
    (fun b blk off entries i => frameME b blk off (makeEntry b blk off entries i))
    (fun b blk off vOff entries i =>
      frameME b blk off (makeEntryAux b blk off vOff entries i))
    (fun b blk lo bsz entries i =>
      framePG b blk lo bsz entries i (processGroups b blk lo bsz entries i))
    frameCase1 frameCase2 frameCase3 frameCase4 frameCase5 frameCase6 frameCase7
    frameCase8 frameCase9 frameCase10 frameCase11 frameCase12 b blk lo bsz entries i

/-- The frame theorem for `makeEntryAux`. -/
theorem makeEntryAux_frame {T : Type} (b : mapBuilder T) (blk off vOff : Nat)
    (entries : List (MapEntry T)) (i : Nat) :
    frameME b blk off (makeEntryAux b blk off vOff entries i) :=
  makeEntryAux.induct
    (fun b blk off entries i => frameME b blk off (makeEntry b blk off entries i))
    (fun b blk off vOff entries i =>
      frameME b blk off (makeEntryAux b blk off vOff entries i))
    (fun b blk lo bsz entries i =>
      framePG b blk lo bsz entries i (processGroups b blk lo bsz entries i))
    frameCase1 frameCase2 frameCase3 frameCase4 frameCase5 frameCase6 frameCase7
    frameCase8 frameCase9 frameCase10 frameCase11 frameCase12 b blk off vOff entries i

/-! ## Byte-lexicographic order facts -/

theorem keyLt_nil_right (a : List Nat) : keyLt a [] = false := by
  cases a <;> rfl

theorem keyLt_nil_left_false_iff (c : List Nat) : keyLt [] c = false ↔ c = [] := by
  cases c <;> simp [keyLt]

theorem keyLt_cons_iff {x y : Nat} {xs ys : List Nat} :
    keyLt (x :: xs) (y :: ys) = true ↔ x < y ∨ (x = y ∧ keyLt xs ys = true) := by
  simp [keyLt]

theorem keyLt_cons_false {x y : Nat} {xs ys : List Nat}
    (h : keyLt (x :: xs) (y :: ys) = false) :
    ¬ x < y ∧ (x = y → keyLt xs ys = false) := by
  constructor
  · intro hlt
    have h2 := (@keyLt_cons_iff x y xs ys).mpr (Or.inl hlt)
    rw [h] at h2
    exact Bool.noConfusion h2
  · intro heq
    by_contra hne
    have h2 := (@keyLt_cons_iff x y xs ys).mpr
      (Or.inr ⟨heq, Bool.not_eq_false _ |>.mp hne⟩)
    rw [h] at h2
    exact Bool.noConfusion h2

theorem keyLt_cons_false_of {x y : Nat} {xs ys : List Nat} (h1 : ¬ x < y)
    (h2 : x = y → keyLt xs ys = false) : keyLt (x :: xs) (y :: ys) = false := by
  rw [Bool.eq_false_iff]
  intro hc
  rcases keyLt_cons_iff.mp hc with hlt | ⟨heq, htail⟩
  · exact h1 hlt
  · rw [h2 heq] at htail
    exact Bool.noConfusion htail

theorem keyLt_asymm : ∀ (a c : List Nat), keyLt a c = true → keyLt c a = false := by
  intro a
  induction a with
  | nil =>
    intro c _
    exact keyLt_nil_right c
  | cons x xs ih =>
    intro c h
    cases c with
    | nil =>
      rw [keyLt_nil_right] at h
      exact Bool.noConfusion h
    | cons y ys =>
      rcases keyLt_cons_iff.mp h with hlt | ⟨heq, htail⟩
      · exact keyLt_cons_false_of (by omega) (by omega)
      · exact keyLt_cons_false_of (by omega) (fun _ => ih ys htail)

theorem keyLt_neg_trans : ∀ (p q r : List Nat),
    keyLt p q = false → keyLt q r = false → keyLt p r = false := by
  intro p
  induction p with
  | nil =>
    intro q r h1 h2
    obtain rfl := (keyLt_nil_left_false_iff q).mp h1
    exact h2
  | cons x xs ih =>
    intro q r h1 h2
    cases r with
    | nil => exact keyLt_nil_right _
    | cons z zs =>
      cases q with
      | nil => simpa using (keyLt_nil_left_false_iff _).mp h2
      | cons y ys =>
        obtain ⟨hxy, hxy2⟩ := keyLt_cons_false h1
        obtain ⟨hyz, hyz2⟩ := keyLt_cons_false h2
        refine keyLt_cons_false_of (by omega) ?_
        intro heq
        have hx_eq_y : x = y := by omega
        have hy_eq_z : y = z := by omega
        subst hx_eq_y
        exact ih ys zs (hxy2 rfl) (hyz2 (by omega))

/-- The sortedness relation produced by `sort.Slice` with `Key < Key`. -/
def entryLe {T : Type} (a c : MapEntry T) : Prop := keyLt c.Key a.Key = false

theorem insertEntry_perm {T : Type} (e : MapEntry T) (l : List (MapEntry T)) :
    (insertEntry e l).Perm (e :: l) := by
  induction l with
  | nil => exact List.Perm.refl _
  | cons f l ih =>
    rw [insertEntry]
    by_cases h : keyLt f.Key e.Key
    · rw [if_pos h]
      exact ((ih.cons f).trans (List.Perm.swap e f l)).symm.symm
    · rw [if_neg h]

theorem sortEntries_perm {T : Type} (entries : List (MapEntry T)) :
    (sortEntries entries).Perm entries := by
  induction entries with
  | nil => exact List.Perm.refl _
  | cons e l ih => exact (insertEntry_perm e (sortEntries l)).trans (ih.cons e)

theorem insertEntry_pairwise {T : Type} (e : MapEntry T)
    (l : List (MapEntry T)) (h : l.Pairwise entryLe) :
    (insertEntry e l).Pairwise entryLe := by
  induction l with
  | nil => simp [insertEntry, entryLe]
  | cons f l ih =>
    rw [insertEntry]
    rcases List.pairwise_cons.mp h with ⟨hf, hl⟩
    by_cases hc : keyLt f.Key e.Key
    · rw [if_pos hc]
      rw [List.pairwise_cons]
      refine ⟨?_, ih hl⟩
      intro a ha
      rcases List.mem_cons.mp ((insertEntry_perm e l).mem_iff.mp ha) with rfl | hal
      · exact keyLt_asymm _ _ hc
      · exact hf a hal
    · rw [if_neg hc]
      rw [List.pairwise_cons]
      refine ⟨?_, List.pairwise_cons.mpr ⟨hf, hl⟩⟩
      intro a ha
      rcases List.mem_cons.mp ha with rfl | hal
      · exact Bool.not_eq_true _ |>.mp hc
      · exact keyLt_neg_trans a.Key f.Key e.Key (hf a hal)
          (Bool.not_eq_true _ |>.mp hc)

theorem sortEntries_pairwise {T : Type} (l : List (MapEntry T)) :
    (sortEntries l).Pairwise entryLe := by
  induction l with
  | nil => exact List.Pairwise.nil
  | cons e l ih => exact insertEntry_pairwise e (sortEntries l) ih

/-! ## Suffix order facts used by the builder induction -/

/-- Order on the unconsumed suffixes at depth `i`. -/
def suffLe {T : Type} (i : Nat) (a c : MapEntry T) : Prop :=
  keyLt (c.Key.drop i) (a.Key.drop i) = false

theorem pairwise_suffLe_zero {T : Type} {l : List (MapEntry T)}
    (h : l.Pairwise entryLe) : l.Pairwise (suffLe 0) := by
  refine h.imp_of_mem ?_
  intro a c _ _ hac
  rw [suffLe, List.drop_zero, List.drop_zero]
  exact hac

theorem drop_cons_of_getElem? {l : List Nat} {i b0 : Nat} (h : l[i]? = some b0) :
    l.drop i = b0 :: l.drop (i + 1) := by
  obtain ⟨hlt, he⟩ := List.getElem?_eq_some_iff.mp h
  rw [List.drop_eq_getElem_cons hlt, he]

theorem getElem?_mem_of_some {l : List Nat} {i b0 : Nat} (h : l[i]? = some b0) :
    b0 ∈ l := by
  obtain ⟨hlt, he⟩ := List.getElem?_eq_some_iff.mp h
  exact he ▸ List.getElem_mem hlt

theorem suffLe_step {T : Type} {i b0 : Nat} {a c : MapEntry T}
    (ha : a.Key[i]? = some b0) (hc : c.Key[i]? = some b0) (h : suffLe i a c) :
    suffLe (i + 1) a c := by
  rw [suffLe] at h ⊢
  rw [drop_cons_of_getElem? ha, drop_cons_of_getElem? hc] at h
  exact (keyLt_cons_false h).2 rfl

theorem suffLe_head_byte {T : Type} {i : Nat} {a c : MapEntry T} {x y : Nat}
    (ha : a.Key[i]? = some x) (hc : c.Key[i]? = some y) (h : suffLe i a c) :
    x ≤ y := by
  rw [suffLe, drop_cons_of_getElem? ha, drop_cons_of_getElem? hc] at h
  have := (keyLt_cons_false h).1
  omega

theorem suffLe_no_terminal_after {T : Type} {i b0 : Nat} {a c : MapEntry T}
    (ha : a.Key[i]? = some b0) (hc : c.Key.length ≤ i) (h : suffLe i a c) :
    False := by
  rw [suffLe, List.drop_eq_nil_iff.mpr hc, drop_cons_of_getElem? ha] at h
  simp [keyLt] at h

theorem sorted_head_min {T : Type} {i lo : Nat} {e1 : MapEntry T}
    {es : List (MapEntry T)} (hsort : (e1 :: es).Pairwise (suffLe i))
    (h1 : e1.Key[i]? = some lo) :
    ∀ e ∈ e1 :: es, ∀ b0, e.Key[i]? = some b0 → lo ≤ b0 := by
  intro e he b0 hb
  rcases List.mem_cons.mp he with rfl | hee
  · rw [h1] at hb
    obtain rfl := Option.some_inj.mp hb
    exact Nat.le_refl _
  · exact suffLe_head_byte h1 hb ((List.pairwise_cons.mp hsort).1 e hee)

theorem pairwise_rel_getLast {α : Type} {R : α → α → Prop} :
    ∀ {l : List α}, l.Pairwise R → ∀ (hne : l ≠ []) (e : α), e ∈ l →
      e = l.getLast hne ∨ R e (l.getLast hne) := by
  intro l
  induction l with
  | nil =>
    intro _ hne
    exact absurd rfl hne
  | cons a l ih =>
    intro h hne e he
    rcases List.pairwise_cons.mp h with ⟨ha, hl⟩
    cases l with
    | nil =>
      left
      rw [List.mem_singleton] at he
      subst he
      rfl
    | cons f l2 =>
      have hne2 : f :: l2 ≠ [] := by simp
      have hlast : (a :: f :: l2).getLast hne = (f :: l2).getLast hne2 :=
        List.getLast_cons hne2
      rcases List.mem_cons.mp he with rfl | hee
      · right
        rw [hlast]
        exact ha _ (List.getLast_mem hne2)
      · rcases ih hl hne2 e hee with h1 | h2
        · left; rw [hlast]; exact h1
        · right; rw [hlast]; exact h2

theorem sorted_last_max {T : Type} {i hi : Nat} {l : List (MapEntry T)}
    (hne : l ≠ []) (hsort : l.Pairwise (suffLe i))
    (hlast : (l.getLast hne).Key[i]? = some hi) :
    ∀ e ∈ l, ∀ b0, e.Key[i]? = some b0 → b0 ≤ hi := by
  intro e he b0 hb
  rcases pairwise_rel_getLast hsort hne e he with heq | hrel
  · rw [heq, hlast] at hb
    obtain rfl := Option.some_inj.mp hb
    exact Nat.le_refl _
  · exact suffLe_head_byte hb hlast hrel

theorem takeWhile_byte_mem {T : Type} {i b0 : Nat} {l : List (MapEntry T)} :
    ∀ e ∈ l.takeWhile (fun e => e.Key[i]? == some b0), e.Key[i]? = some b0 := by
  intro e he
  have := List.mem_takeWhile_imp he
  simpa using this

theorem grp_pairwise_succ {T : Type} {i b0 : Nat} {l : List (MapEntry T)}
    (hsort : l.Pairwise (suffLe i)) :
    (l.takeWhile (fun e => e.Key[i]? == some b0)).Pairwise (suffLe (i + 1)) := by
  have hg : (l.takeWhile (fun e => e.Key[i]? == some b0)).Pairwise (suffLe i) :=
    List.Pairwise.sublist (List.takeWhile_sublist _) hsort
  refine hg.imp_of_mem ?_
  intro a c hma hmc hac
  exact suffLe_step (takeWhile_byte_mem a hma) (takeWhile_byte_mem c hmc) hac

theorem dropWhile_head_not {α : Type} (p : α → Bool) :
    ∀ (l : List α) {e : α} {tl : List α}, l.dropWhile p = e :: tl → p e = false := by
  intro l
  induction l with
  | nil =>
    intro e tl h
    simp at h
  | cons a l ih =>
    intro e tl h
    rw [List.dropWhile_cons] at h
    by_cases hp : p a
    · rw [if_pos hp] at h
      exact ih h
    · rw [if_neg hp] at h
      obtain ⟨rfl, -⟩ := List.cons_eq_cons.mp h
      exact Bool.not_eq_true _ |>.mp hp

/-- For a byte below 256 and an offset below it, Go's wrap-around byte
subtraction is ordinary subtraction. -/
theorem byteSub_eq {b0 lo : Nat} (hlo : lo ≤ b0) (hb : b0 < 256) :
    byteSub b0 lo = b0 - lo := by
  rw [byteSub]
  have h1 : b0 + 256 - lo = 256 + (b0 - lo) := by omega
  rw [h1, Nat.add_mod_left]
  exact Nat.mod_eq_of_lt (by omega)

/-! ## The semantic theorem of the builder -/

/-- All elements of the candidate sequence are bytes. -/
def allBytes (s : List Nat) : Prop := ∀ x ∈ s, x < 256

theorem lookFrom_nil_zero {S : List mapInternalNode} {bv : mapInternalNode}
    (h : bv.valueOffset = 0) : lookFrom S bv [] = some 0 := by
  rw [lookFrom, if_pos h]

theorem lookFrom_nil_pos {S : List mapInternalNode} {bv : mapInternalNode}
    (h : ¬ bv.valueOffset = 0) : lookFrom S bv [] = some bv.valueOffset := by
  rw [lookFrom, if_neg h]

theorem lookFrom_cons_low {S : List mapInternalNode} {bv : mapInternalNode}
    {x : Nat} {rest : List Nat} (h1 : x < bv.nextOffset) :
    lookFrom S bv (x :: rest) = some 0 := by
  rw [lookFrom, if_pos h1]

theorem lookFrom_cons_high {S : List mapInternalNode} {bv : mapInternalNode}
    {x : Nat} {rest : List Nat} (h1 : ¬ x < bv.nextOffset)
    (h2 : bv.nextLen ≤ x - bv.nextOffset) :
    lookFrom S bv (x :: rest) = some 0 := by
  rw [lookFrom, if_neg h1]
  dsimp only
  rw [if_pos h2]

theorem lookFrom_cons_step {S : List mapInternalNode} {bv nd2 : mapInternalNode}
    {x : Nat} {rest : List Nat} (h1 : ¬ x < bv.nextOffset)
    (h2 : ¬ bv.nextLen ≤ x - bv.nextOffset)
    (h3 : S[(bv.nextLo + (x - bv.nextOffset)) % uintMod]? = some nd2) :
    lookFrom S bv (x :: rest) = lookFrom S nd2 rest := by
  rw [lookFrom, if_neg h1]
  dsimp only
  rw [if_neg h2, h3]

/-- Positive and negative lookup behavior of the subtree rooted at global
index `gloc`, relative to a final store `S` and a final value array `V`. -/
def subtreeSem {T : Type} (S : List mapInternalNode) (V : List T) (gloc : Nat)
    (entries : List (MapEntry T)) (i : Nat) : Prop :=
  (∀ e ∈ entries, ∃ nd r0,
    S[gloc]? = some nd ∧
    lookFrom S nd (e.Key.drop i) = some r0 ∧ r0 ≠ 0 ∧ r0 - 1 < V.length ∧
    V[r0 - 1]? = some e.Value) ∧
  (∀ s : List Nat, allBytes s → (∀ e ∈ entries, e.Key.drop i ≠ s) →
    ∃ nd, S[gloc]? = some nd ∧ lookFrom S nd s = some 0)

/-- Semantic statement for `makeEntry`. -/
def semME {T : Type} (b : mapBuilder T) (blk off : Nat)
    (entries : List (MapEntry T)) (i : Nat) (r : Option (mapBuilder T)) : Prop :=
  ∀ b', r = some b' → WFB b →
    entries.Pairwise (suffLe i) →
    (∀ e ∈ entries, i ≤ e.Key.length) →
    (∀ e ∈ entries, ∀ x ∈ e.Key, x < 256) →
    ∀ S : List mapInternalNode, S.length < uintMod →
      (∀ g, (g = blockStart b blk + off ∨ (b.len ≤ g ∧ g < b'.len)) →
        S[g]? = (flatB b')[g]?) →
    ∀ V : List T, V.length < uintMod → (∃ d, V = b'.values ++ d) →
      subtreeSem S V (blockStart b blk + off) entries i

/-- Semantic statement for `makeEntryAux` (the node carries `valueOffset =
vOff`; `entries` are the non-terminal entries). -/
def semAux {T : Type} (b : mapBuilder T) (blk off vOff : Nat)
    (entries : List (MapEntry T)) (i : Nat) (r : Option (mapBuilder T)) : Prop :=
  ∀ b', r = some b' → WFB b →
    entries.Pairwise (suffLe i) →
    (∀ e ∈ entries, i ≤ e.Key.length) →
    (∀ e ∈ entries, ∀ x ∈ e.Key, x < 256) →
    ∀ S : List mapInternalNode, S.length < uintMod →
      (∀ g, (g = blockStart b blk + off ∨ (b.len ≤ g ∧ g < b'.len)) →
        S[g]? = (flatB b')[g]?) →
    ∀ V : List T, V.length < uintMod → (∃ d, V = b'.values ++ d) →
      ∃ nd, S[blockStart b blk + off]? = some nd ∧ nd.valueOffset = vOff ∧
        (∀ e ∈ entries, ∃ r0,
          lookFrom S nd (e.Key.drop i) = some r0 ∧ r0 ≠ 0 ∧
          r0 - 1 < V.length ∧ V[r0 - 1]? = some e.Value) ∧
        (∀ s : List Nat, allBytes s → s ≠ [] →
          (∀ e ∈ entries, e.Key.drop i ≠ s) → lookFrom S nd s = some 0)

/-- Semantic statement for `processGroups`. -/
def semPG {T : Type} (b : mapBuilder T) (blk lo bsz : Nat)
    (entries : List (MapEntry T)) (i : Nat) (r : Option (mapBuilder T)) : Prop :=
  ∀ b', r = some b' → WFB b → blk < b.stores.length →
    blockStart b blk + bsz ≤ b.len →
    entries.Pairwise (suffLe i) →
    (∀ e ∈ entries, ∀ x ∈ e.Key, x < 256) →
    (∀ e ∈ entries, ∀ b0, e.Key[i]? = some b0 → lo ≤ b0) →
    ∀ S : List mapInternalNode, S.length < uintMod →
      (∀ g, ((blockStart b blk ≤ g ∧ g < blockStart b blk + bsz) ∨
          (b.len ≤ g ∧ g < b'.len)) → S[g]? = (flatB b')[g]?) →
    ∀ V : List T, V.length < uintMod → (∃ d, V = b'.values ++ d) →
      (∀ e ∈ entries, ∃ b0, e.Key[i]? = some b0 ∧ b0 - lo < bsz ∧
        ∃ nd r0, S[blockStart b blk + (b0 - lo)]? = some nd ∧
          lookFrom S nd (e.Key.drop (i + 1)) = some r0 ∧ r0 ≠ 0 ∧
          r0 - 1 < V.length ∧ V[r0 - 1]? = some e.Value) ∧
      (∀ x rest, lo ≤ x → x < 256 → x - lo < bsz → allBytes rest →
        (∀ e ∈ entries, e.Key.drop i ≠ x :: rest) →
        (flatB b')[blockStart b blk + (x - lo)]? =
            (flatB b)[blockStart b blk + (x - lo)]? ∨
          (∃ nd, S[blockStart b blk + (x - lo)]? = some nd ∧
            lookFrom S nd rest = some 0))

theorem semCase1 {T : Type} (b : mapBuilder T) (blk off i : Nat) :
    semME b blk off [] i (makeEntry b blk off [] i) := by
  intro b' hres
  rw [makeEntry_nil] at hres
  exact absurd hres (by simp)

theorem semCase5 {T : Type} (b : mapBuilder T) (blk off vOff i : Nat)
    (f : MapEntry T) (l : List (MapEntry T)) (lo hi : Nat)
    (hhi : ((f :: l).getLast (List.cons_ne_nil f l)).Key[i]? = some hi)
    (hlo : f.Key[i]? = some lo)
    (hset : setNode b blk off
      ⟨b.len % uintMod, (byteSub hi lo + 1) % 256, lo, vOff⟩ = none) :
    semAux b blk off vOff (f :: l) i (makeEntryAux b blk off vOff (f :: l) i) := by
  intro b' hres
  rw [makeEntryAux_cons _ _ _ _ _ _ _ hlo hhi, hset] at hres
  exact absurd hres (by simp)

theorem semCase7 {T : Type} (b : mapBuilder T) (blk off vOff i : Nat)
    (f : MapEntry T) (l : List (MapEntry T))
    (hbad : ∀ (lo hi : Nat), f.Key[i]? = some lo →
      ((f :: l).getLast (List.cons_ne_nil f l)).Key[i]? = some hi → False) :
    semAux b blk off vOff (f :: l) i (makeEntryAux b blk off vOff (f :: l) i) := by
  intro b' hres
  exfalso
  cases hk1 : f.Key[i]? with
  | none =>
    rw [makeEntryAux_cons_bad_lo _ _ _ _ _ _ _ hk1] at hres
    exact absurd hres (by simp)
  | some lo =>
    cases hk2 : ((f :: l).getLast (List.cons_ne_nil f l)).Key[i]? with
    | none =>
      rw [makeEntryAux_cons_bad_hi _ _ _ _ _ _ _ hk2] at hres
      exact absurd hres (by simp)
    | some hi => exact hbad lo hi hk1 hk2

theorem semCase8 {T : Type} (b : mapBuilder T) (blk lo bsz i : Nat) :
    semPG b blk lo bsz [] i (processGroups b blk lo bsz [] i) := by
  intro b' hres
  rw [processGroups_nil] at hres
  obtain rfl : b = b' := Option.some_inj.mp hres
  intro _ _ _ _ _ _ _ _ _ _ _ _
  exact ⟨by simp, fun x rest _ _ _ _ _ => Or.inl rfl⟩

theorem semCase9 {T : Type} (b : mapBuilder T) (blk lo bsz i : Nat)
    (f : MapEntry T) (l : List (MapEntry T)) (h : (f.Key[i]?).isSome = true)
    (hlt : byteSub (f.Key[i]?.get h) lo < bsz)
    (hME : makeEntry b blk (byteSub (f.Key[i]?.get h) lo)
      ((f :: l).takeWhile (fun e => e.Key[i]? == some (f.Key[i]?.get h)))
      (i + 1) = none)
    (_ih : semME b blk (byteSub (f.Key[i]?.get h) lo)
      ((f :: l).takeWhile (fun e => e.Key[i]? == some (f.Key[i]?.get h))) (i + 1)
      (makeEntry b blk (byteSub (f.Key[i]?.get h) lo)
        ((f :: l).takeWhile (fun e => e.Key[i]? == some (f.Key[i]?.get h)))
        (i + 1))) :
    semPG b blk lo bsz (f :: l) i (processGroups b blk lo bsz (f :: l) i) := by
  intro b' hres
  have h0 : f.Key[i]? = some (f.Key[i]?.get h) := (Option.some_get h).symm
  rw [processGroups_cons _ _ _ _ _ _ _ h0, if_pos hlt, hME] at hres
  exact absurd hres (by simp)

theorem semCase11 {T : Type} (b : mapBuilder T) (blk lo bsz i : Nat)
    (f : MapEntry T) (l : List (MapEntry T)) (h : (f.Key[i]?).isSome = true)
    (hnlt : ¬ byteSub (f.Key[i]?.get h) lo < bsz) :
    semPG b blk lo bsz (f :: l) i (processGroups b blk lo bsz (f :: l) i) := by
  intro b' hres
  have h0 : f.Key[i]? = some (f.Key[i]?.get h) := (Option.some_get h).symm
  rw [processGroups_cons _ _ _ _ _ _ _ h0, if_neg hnlt] at hres
  exact absurd hres (by simp)

theorem semCase12 {T : Type} (b : mapBuilder T) (blk lo bsz i : Nat)
    (f : MapEntry T) (l : List (MapEntry T)) (h : ¬ (f.Key[i]?).isSome = true) :
    semPG b blk lo bsz (f :: l) i (processGroups b blk lo bsz (f :: l) i) := by
  intro b' hres
  have h0 : f.Key[i]? = none := Option.not_isSome_iff_eq_none.mp h
  rw [processGroups_cons_bad _ _ _ _ _ _ _ h0] at hres
  exact absurd hres (by simp)

theorem semCase4 {T : Type} (b : mapBuilder T) (blk off vOff i : Nat) :
    semAux b blk off vOff [] i (makeEntryAux b blk off vOff [] i) := by
  intro b' hres hWF _ _ _ S hScap hS V hVcap hV
  rw [makeEntryAux_nil] at hres
  obtain ⟨hflat, -, -, -, hlt, -⟩ := setNode_flat hres
  have hnode : S[blockStart b blk + off]? = some ⟨0, 0, 0, vOff⟩ := by
    rw [hS _ (Or.inl rfl), hflat]
    exact List.getElem?_set_self hlt
  refine ⟨⟨0, 0, 0, vOff⟩, hnode, rfl, by simp, ?_⟩
  intro s _ hsne _
  cases s with
  | nil => exact absurd rfl hsne
  | cons x rest =>
    apply lookFrom_cons_high
    · simp
    · simp

theorem semCase2 {T : Type} (b : mapBuilder T) (blk off : Nat) (f : MapEntry T)
    (l : List (MapEntry T))
    (ih : semAux { b with values := b.values ++ [f.Value] } blk off
      ((b.values.length + 1) % uintMod) l f.Key.length
      (makeEntryAux { b with values := b.values ++ [f.Value] } blk off
        ((b.values.length + 1) % uintMod) l f.Key.length)) :
    semME b blk off (f :: l) f.Key.length
      (makeEntry b blk off (f :: l) f.Key.length) := by
  intro b' hres hWF hsort hlen hbytes S hScap hS V hVcap hV
  rw [makeEntry_cons_term _ _ _ _ _ _ rfl] at hres
  have hsort2 : l.Pairwise (suffLe f.Key.length) := (List.pairwise_cons.mp hsort).2
  have hlen2 : ∀ e ∈ l, f.Key.length ≤ e.Key.length :=
    fun e he => hlen e (List.mem_cons_of_mem f he)
  have hbytes2 : ∀ e ∈ l, ∀ x ∈ e.Key, x < 256 :=
    fun e he => hbytes e (List.mem_cons_of_mem f he)
  obtain ⟨nd, hnode, hvoff, hpos, hneg⟩ :=
    ih b' hres hWF hsort2 hlen2 hbytes2 S hScap hS V hVcap hV
  obtain ⟨hstep, -, -⟩ :=
    makeEntryAux_frame { b with values := b.values ++ [f.Value] } blk off
      ((b.values.length + 1) % uintMod) l f.Key.length b' hres hWF
  obtain ⟨d2, hd2⟩ := hstep.values_ext
  obtain ⟨d, hd⟩ := hV
  have hVform : V = b.values ++ ([f.Value] ++ (d2 ++ d)) := by
    rw [hd, hd2]
    simp
  have hlenV : b.values.length + 1 ≤ V.length := by
    rw [hVform]
    simp
  have hvoffval : (b.values.length + 1) % uintMod = b.values.length + 1 :=
    Nat.mod_eq_of_lt (by omega)
  have hvoffne : nd.valueOffset ≠ 0 := by
    rw [hvoff, hvoffval]
    omega
  have hVat : V[b.values.length]? = some f.Value := by
    rw [hVform, List.getElem?_append_right (Nat.le_refl _), Nat.sub_self,
      List.getElem?_append_left (by simp)]
    rfl
  constructor
  · intro e he
    rcases List.mem_cons.mp he with rfl | hel
    · refine ⟨nd, nd.valueOffset, hnode, ?_, hvoffne, ?_, ?_⟩
      · rw [List.drop_length]
        exact lookFrom_nil_pos hvoffne
      · rw [hvoff, hvoffval]
        omega
      · rw [hvoff, hvoffval, Nat.add_sub_cancel]
        exact hVat
    · obtain ⟨r0, h1, h2, h3, h4⟩ := hpos e hel
      exact ⟨nd, r0, hnode, h1, h2, h3, h4⟩
  · intro s hsb hno
    cases s with
    | nil =>
      exfalso
      apply hno f (by simp)
      rw [List.drop_length]
    | cons x rest =>
      refine ⟨nd, hnode, ?_⟩
      exact hneg _ hsb (by simp) (fun e he => hno e (List.mem_cons_of_mem f he))

theorem semCase3 {T : Type} (b : mapBuilder T) (blk off i : Nat) (f : MapEntry T)
    (l : List (MapEntry T)) (hne : ¬ f.Key.length = i)
    (ih : semAux b blk off 0 (f :: l) i (makeEntryAux b blk off 0 (f :: l) i)) :
    semME b blk off (f :: l) i (makeEntry b blk off (f :: l) i) := by
  intro b' hres hWF hsort hlen hbytes S hScap hS V hVcap hV
  rw [makeEntry_cons_nonterm _ _ _ _ _ _ hne] at hres
  obtain ⟨nd, hnode, hvoff, hpos, hneg⟩ :=
    ih b' hres hWF hsort hlen hbytes S hScap hS V hVcap hV
  constructor
  · intro e he
    obtain ⟨r0, h1, h2, h3, h4⟩ := hpos e he
    exact ⟨nd, r0, hnode, h1, h2, h3, h4⟩
  · intro s hsb hno
    refine ⟨nd, hnode, ?_⟩
    cases s with
    | nil => exact lookFrom_nil_zero (by rw [hvoff])
    | cons x rest => exact hneg _ hsb (by simp) hno

theorem agree_len_le {S F : List mapInternalNode} {n : Nat}
    (hag : S[n - 1]? = F[n - 1]?) (hn : 0 < n) (hF : n ≤ F.length) :
    n ≤ S.length := by
  by_contra hc
  rw [List.getElem?_eq_none (by omega)] at hag
  have h2 : ∃ x, F[n - 1]? = some x :=
    ⟨_, List.getElem?_eq_getElem (by omega)⟩
  obtain ⟨x, h2⟩ := h2
  rw [h2] at hag
  exact Option.noConfusion hag

theorem semCase6 {T : Type} (b : mapBuilder T) (blk off vOff i : Nat)
    (f : MapEntry T) (l : List (MapEntry T)) (lo hi : Nat)
    (hhi : ((f :: l).getLast (List.cons_ne_nil f l)).Key[i]? = some hi)
    (hlo : f.Key[i]? = some lo) (b2 : mapBuilder T)
    (hset : setNode b blk off
      ⟨b.len % uintMod, (byteSub hi lo + 1) % 256, lo, vOff⟩ = some b2)
    (ih : semPG (allocateNodes b2 ((byteSub hi lo + 1) % 256))
      b2.stores.length lo ((byteSub hi lo + 1) % 256) (f :: l) i
      (processGroups (allocateNodes b2 ((byteSub hi lo + 1) % 256))
        b2.stores.length lo ((byteSub hi lo + 1) % 256) (f :: l) i)) :
    semAux b blk off vOff (f :: l) i (makeEntryAux b blk off vOff (f :: l) i) := by
  intro b' hres hWF hsort hlen hbytes S hScap hS V hVcap hV
  rw [makeEntryAux_cons _ _ _ _ _ _ _ hlo hhi, hset] at hres
  dsimp only at hres
  set span := (byteSub hi lo + 1) % 256 with hspan
  set nw : mapInternalNode := ⟨b.len % uintMod, span, lo, vOff⟩ with hnw
  obtain ⟨hflat2, hlen2, hvals2, hblocks2, hlt2, hstep2⟩ := setNode_flat hset
  have hWF2 : WFB b2 := hstep2.wfb hWF
  obtain ⟨hflat3, hlen3, hvals3, hblocks3, hstep3⟩ := allocateNodes_flat b2 span
  set b3 := allocateNodes b2 span with hb3
  have hWF3 : WFB b3 := hstep3.wfb hWF2
  have hcblk : b2.stores.length < b3.stores.length := by
    rw [hblocks3]; omega
  have hflen2 : (flatB b2).length = (flatB b).length := by
    rw [hflat2, List.length_set]
  have hbase : blockStart b3 b2.stores.length = b.len := by
    rw [hb3, blockStart_allocate, hflen2, ← hWF]
  obtain ⟨hstepPG, hframePG, -⟩ :=
    processGroups_frame b3 b2.stores.length lo span (f :: l) i b' hres hWF3 hcblk
  have hlo_byte : lo < 256 := hbytes f (by simp) lo (getElem?_mem_of_some hlo)
  have hspan_pos : 0 < span := by
    by_contra hc
    rw [processGroups_cons _ _ _ _ _ _ _ hlo] at hres
    rw [byteSub_eq (Nat.le_refl _) hlo_byte, if_neg (by omega)] at hres
    exact absurd hres (by simp)
  have hlen3' : b3.len = b.len + span := by
    rw [hlen3, hlen2]
  have hblen' : b.len + span ≤ b'.len := by
    have := hstepPG.len_le; omega
  have hWFp : WFB b' := hstepPG.wfb hWF3
  have hSlen : b'.len ≤ S.length :=
    agree_len_le (hS (b'.len - 1) (Or.inr ⟨by omega, by omega⟩))
      (by omega) (by rw [← hWFp])
  set gloc := blockStart b blk + off with hgloc
  have hglt : gloc < b.len := by
    rw [hWF]; exact hlt2
  have hnodeflat : (flatB b')[gloc]? = some nw := by
    have hfr : (flatB b')[gloc]? = (flatB b3)[gloc]? := by
      apply hframePG gloc (by omega)
      intro e he b0 hb0 hcs
      rw [hbase]
      omega
    rw [hfr, hflat3,
      List.getElem?_append_left (by rw [hflen2, ← hWF]; exact hglt), hflat2]
    exact List.getElem?_set_self hlt2
  have hnode : S[gloc]? = some nw := by
    rw [hS gloc (Or.inl rfl)]
    exact hnodeflat
  have hlo_min : ∀ e ∈ f :: l, ∀ b0, e.Key[i]? = some b0 → lo ≤ b0 :=
    sorted_head_min hsort hlo
  have hS3 : ∀ g, ((blockStart b3 b2.stores.length ≤ g ∧
      g < blockStart b3 b2.stores.length + span) ∨ (b3.len ≤ g ∧ g < b'.len)) →
      S[g]? = (flatB b')[g]? := by
    intro g hg
    apply hS
    rcases hg with ⟨h1, h2⟩ | ⟨h1, h2⟩
    · rw [hbase] at h1 h2
      exact Or.inr ⟨h1, by omega⟩
    · exact Or.inr ⟨by omega, h2⟩
  obtain ⟨hposPG, hnegPG⟩ :=
    ih b' hres hWF3 hcblk (by rw [hbase]; omega) hsort hbytes hlo_min
      S hScap hS3 V hVcap hV
  have hblen_u : b.len < uintMod := by omega
  have hmod : ∀ k, k < span → (nw.nextLo + k) % uintMod = b.len + k := by
    intro k hk
    show (b.len % uintMod + k) % uintMod = b.len + k
    rw [Nat.mod_eq_of_lt hblen_u]
    exact Nat.mod_eq_of_lt (by omega)
  refine ⟨nw, hnode, rfl, ?_, ?_⟩
  · intro e he
    obtain ⟨b0, hb0, hblt, nd2, r0, hslot, hlook2, hr0, hr1, hr2⟩ := hposPG e he
    have hlob0 : lo ≤ b0 := hlo_min e he b0 hb0
    refine ⟨r0, ?_, hr0, hr1, hr2⟩
    rw [drop_cons_of_getElem? hb0]
    rw [hbase] at hslot
    rw [lookFrom_cons_step (show ¬ b0 < lo by omega)
      (show ¬ span ≤ b0 - lo by omega)
      (show S[(nw.nextLo + (b0 - lo)) % uintMod]? = some nd2 by
        rw [hmod _ hblt]; exact hslot)]
    exact hlook2
  · intro s hsb hsne hno
    cases s with
    | nil => exact absurd rfl hsne
    | cons x rest =>
      have hx256 : x < 256 := hsb x (by simp)
      by_cases hxlo : x < lo
      · exact lookFrom_cons_low (show x < nw.nextOffset from hxlo)
      · by_cases hxspan : span ≤ x - lo
        · exact lookFrom_cons_high (show ¬ x < nw.nextOffset from hxlo)
            (show nw.nextLen ≤ x - nw.nextOffset from hxspan)
        · have hrest_b : allBytes rest := fun y hy => hsb y (by simp [hy])
          have hidx : blockStart b3 b2.stores.length + (x - lo) =
              b.len + (x - lo) := by rw [hbase]
          rcases hnegPG x rest (by omega) hx256 (by omega) hrest_b hno with
            hleft | ⟨nd2, hslot, hlook0⟩
          · have hzero : (flatB b3)[b.len + (x - lo)]? = some zeroNode := by
              rw [hflat3,
                List.getElem?_append_right (by rw [hflen2, ← hWF]; omega)]
              have harith : b.len + (x - lo) - (flatB b2).length = x - lo := by
                rw [hflen2, ← hWF]; omega
              rw [harith, List.getElem?_replicate, if_pos (by omega)]
            rw [hidx] at hleft
            have hsome : S[b.len + (x - lo)]? = some zeroNode := by
              rw [hS _ (Or.inr ⟨by omega, by omega⟩), hleft]
              exact hzero
            rw [lookFrom_cons_step (show ¬ x < lo from hxlo)
              (show ¬ span ≤ x - lo from hxspan)
              (show S[(nw.nextLo + (x - lo)) % uintMod]? = some zeroNode by
                rw [hmod _ (by omega)]; exact hsome)]
            exact lookFrom_zeroNode S rest
          · rw [hidx] at hslot
            rw [lookFrom_cons_step (show ¬ x < lo from hxlo)
              (show ¬ span ≤ x - lo from hxspan)
              (show S[(nw.nextLo + (x - lo)) % uintMod]? = some nd2 by
                rw [hmod _ (by omega)]; exact hslot)]
            exact hlook0

theorem semCase10 {T : Type} (b : mapBuilder T) (blk lo bsz i : Nat)
    (f : MapEntry T) (l : List (MapEntry T)) (h : (f.Key[i]?).isSome = true)
    (hlt : byteSub (f.Key[i]?.get h) lo < bsz) (b2 : mapBuilder T)
    (hME : makeEntry b blk (byteSub (f.Key[i]?.get h) lo)
      ((f :: l).takeWhile (fun e => e.Key[i]? == some (f.Key[i]?.get h)))
      (i + 1) = some b2)
    (ih1 : semME b blk (byteSub (f.Key[i]?.get h) lo)
      ((f :: l).takeWhile (fun e => e.Key[i]? == some (f.Key[i]?.get h))) (i + 1)
      (makeEntry b blk (byteSub (f.Key[i]?.get h) lo)
        ((f :: l).takeWhile (fun e => e.Key[i]? == some (f.Key[i]?.get h)))
        (i + 1)))
    (ih3 : semPG b2 blk lo bsz
      ((f :: l).dropWhile (fun e => e.Key[i]? == some (f.Key[i]?.get h))) i
      (processGroups b2 blk lo bsz
        ((f :: l).dropWhile (fun e => e.Key[i]? == some (f.Key[i]?.get h))) i)) :
    semPG b blk lo bsz (f :: l) i (processGroups b blk lo bsz (f :: l) i) := by
  intro b' hres hWF hblk hbase hsort hbytes hlomin S hScap hS V hVcap hV
  have h0 : f.Key[i]? = some (f.Key[i]?.get h) := (Option.some_get h).symm
  set b0 := (f.Key[i]?).get h with hb0def
  rw [processGroups_cons _ _ _ _ _ _ _ h0, if_pos hlt, hME] at hres
  dsimp only at hres
  set p : MapEntry T → Bool := fun e => e.Key[i]? == some b0 with hpdef
  set grp := (f :: l).takeWhile p with hgrpdef
  set rest := (f :: l).dropWhile p with hrestdef
  have hfb : f.Key[i]? = some b0 := h0
  have hb0_256 : b0 < 256 := hbytes f (by simp) b0 (getElem?_mem_of_some hfb)
  have hlob0 : lo ≤ b0 := hlomin f (by simp) b0 hfb
  have hchild : byteSub b0 lo = b0 - lo := byteSub_eq hlob0 hb0_256
  have hgrp_bytes : ∀ e ∈ grp, e.Key[i]? = some b0 := fun e he =>
    takeWhile_byte_mem e he
  have hgrp_sub : ∀ e ∈ grp, e ∈ f :: l := fun e he =>
    (List.takeWhile_sublist p).subset he
  have hrest_sub : ∀ e ∈ rest, e ∈ f :: l := fun e he =>
    (List.dropWhile_sublist p).subset he
  obtain ⟨hstepG, hframeG, -⟩ :=
    makeEntry_frame b blk (byteSub b0 lo) grp (i + 1) b2 hME hWF
  have hWF2 : WFB b2 := hstepG.wfb hWF
  have hblk2 : blk < b2.stores.length := lt_of_lt_of_le hblk hstepG.nblocks_le
  obtain ⟨hstepR, hframeR, -⟩ :=
    processGroups_frame b2 blk lo bsz rest i b' hres hWF2 hblk2
  have hstable : blockStart b2 blk = blockStart b blk :=
    hstepG.blockStart_eq (Nat.le_of_lt hblk)
  have hlenG : b.len ≤ b2.len := hstepG.len_le
  have hrest_l : rest = l.dropWhile p := by
    rw [hrestdef, List.dropWhile_cons, if_pos (by rw [hpdef]; simp [hfb])]
  have hrest_gt : ∀ e ∈ rest, ∀ b1, e.Key[i]? = some b1 → b0 < b1 := by
    cases hr : rest with
    | nil =>
      intro e he
      simp at he
    | cons e1 tl =>
      cases hk : e1.Key[i]? with
      | none =>
        intro e he b1 hb1
        exfalso
        rw [hr] at hres
        rw [processGroups_cons_bad _ _ _ _ _ _ _ hk] at hres
        exact absurd hres (by simp)
      | some bh =>
        have hpe1 : p e1 = false := dropWhile_head_not p (f :: l) hr
        have hne : bh ≠ b0 := by
          intro heq
          rw [hpdef] at hpe1
          simp [hk, heq] at hpe1
        have he1l : e1 ∈ l := by
          have hmem : e1 ∈ rest := by rw [hr]; simp
          rw [hrest_l] at hmem
          exact (List.dropWhile_sublist p).subset hmem
        have hfe1 : suffLe i f e1 := (List.pairwise_cons.mp hsort).1 e1 he1l
        have hb0le : b0 ≤ bh := suffLe_head_byte hfb hk hfe1
        have hsort_rest : rest.Pairwise (suffLe i) :=
          List.Pairwise.sublist (List.dropWhile_sublist p) hsort
        intro e he b1 hb1
        have hbh_le : bh ≤ b1 :=
          sorted_head_min (hr ▸ hsort_rest) hk e he b1 hb1
        omega
  have hSgrp : ∀ g,
      (g = blockStart b blk + byteSub b0 lo ∨ (b.len ≤ g ∧ g < b2.len)) →
      S[g]? = (flatB b2)[g]? := by
    intro g hg
    have hgB : S[g]? = (flatB b')[g]? := by
      apply hS
      rcases hg with rfl | ⟨h1, h2⟩
      · exact Or.inl ⟨Nat.le_add_right _ _, by omega⟩
      · exact Or.inr ⟨h1, lt_of_lt_of_le h2 hstepR.len_le⟩
    rw [hgB]
    apply hframeR g
    · rcases hg with rfl | ⟨h1, h2⟩
      · omega
      · exact h2
    · intro e he b1 hb1 hcs
      rw [hstable]
      have hgt : b0 < b1 := hrest_gt e he b1 hb1
      have hb1_256 : b1 < 256 :=
        hbytes e (hrest_sub e he) b1 (getElem?_mem_of_some hb1)
      have he1 : byteSub b1 lo = b1 - lo := byteSub_eq (by omega) hb1_256
      rcases hg with rfl | ⟨h1, h2⟩
      · rw [he1, hchild]
        omega
      · rw [he1] at hcs ⊢
        omega
  have hgrp_sort : grp.Pairwise (suffLe (i + 1)) := grp_pairwise_succ hsort
  have hgrp_len : ∀ e ∈ grp, i + 1 ≤ e.Key.length := by
    intro e he
    obtain ⟨hltk, -⟩ := List.getElem?_eq_some_iff.mp (hgrp_bytes e he)
    omega
  have hgrp_byt : ∀ e ∈ grp, ∀ x ∈ e.Key, x < 256 := fun e he =>
    hbytes e (hgrp_sub e he)
  obtain ⟨dR, hdR⟩ := hstepR.values_ext
  obtain ⟨d, hd⟩ := hV
  have hV2 : ∃ d2, V = b2.values ++ d2 :=
    ⟨dR ++ d, by rw [hd, hdR, List.append_assoc]⟩
  obtain ⟨hposG, hnegG⟩ :=
    ih1 b2 hME hWF hgrp_sort hgrp_len hgrp_byt S hScap hSgrp V hVcap hV2
  have hrest_sort : rest.Pairwise (suffLe i) :=
    List.Pairwise.sublist (List.dropWhile_sublist p) hsort
  have hrest_byt : ∀ e ∈ rest, ∀ x ∈ e.Key, x < 256 := fun e he =>
    hbytes e (hrest_sub e he)
  have hrest_lo : ∀ e ∈ rest, ∀ b1, e.Key[i]? = some b1 → lo ≤ b1 :=
    fun e he => hlomin e (hrest_sub e he)
  have hSrest : ∀ g, ((blockStart b2 blk ≤ g ∧ g < blockStart b2 blk + bsz) ∨
      (b2.len ≤ g ∧ g < b'.len)) → S[g]? = (flatB b')[g]? := by
    intro g hg
    apply hS
    rcases hg with ⟨h1, h2⟩ | ⟨h1, h2⟩
    · rw [hstable] at h1 h2
      exact Or.inl ⟨h1, h2⟩
    · exact Or.inr ⟨le_trans hstepG.len_le h1, h2⟩
  obtain ⟨hposR, hnegR⟩ :=
    ih3 b' hres hWF2 hblk2 (by rw [hstable]; omega) hrest_sort hrest_byt
      hrest_lo S hScap hSrest V hVcap ⟨d, hd⟩
  have hga : grp ++ rest = f :: l := List.takeWhile_append_dropWhile p (f :: l)
  constructor
  · intro e he
    have hsplit : e ∈ grp ∨ e ∈ rest := by
      rw [← hga] at he
      exact List.mem_append.mp he
    rcases hsplit with hgmem | hrmem
    · have heb : e.Key[i]? = some b0 := hgrp_bytes e hgmem
      obtain ⟨nd, r0, hslot, hlook, hr0, hr1, hr2⟩ := hposG e hgmem
      have hbb : b0 - lo < bsz := by rw [← hchild]; exact hlt
      rw [hchild] at hslot
      exact ⟨b0, heb, hbb, nd, r0, hslot, hlook, hr0, hr1, hr2⟩
    · obtain ⟨b1, hb1, hblt1, nd, r0, hslot, hlook, hr0, hr1, hr2⟩ :=
        hposR e hrmem
      rw [hstable] at hslot
      exact ⟨b1, hb1, hblt1, nd, r0, hslot, hlook, hr0, hr1, hr2⟩
  · intro x rest_s hlox hx256 hxbsz hrb hno
    by_cases hxb : x = b0
    · subst hxb
      have hnoG : ∀ e ∈ grp, e.Key.drop (i + 1) ≠ rest_s := by
        intro e he hc
        apply hno e (hgrp_sub e he)
        rw [drop_cons_of_getElem? (hgrp_bytes e he), hc]
      obtain ⟨nd, hslot, hlook0⟩ := hnegG rest_s hrb hnoG
      right
      rw [hchild] at hslot
      exact ⟨nd, hslot, hlook0⟩
    · rcases hnegR x rest_s hlox hx256 hxbsz hrb
        (fun e he => hno e (hrest_sub e he)) with hleft | ⟨nd, hslot, hlook0⟩
      · left
        rw [hstable] at hleft
        rw [hleft]
        apply hframeG
        · omega
        · rw [hchild]
          omega
      · right
        rw [hstable] at hslot
        exact ⟨nd, hslot, hlook0⟩

/-- The semantic theorem for `makeEntry`. -/
theorem makeEntry_sem {T : Type} (b : mapBuilder T) (blk off : Nat)
    (entries : List (MapEntry T)) (i : Nat) :
    semME b blk off entries i (makeEntry b blk off entries i) :=
  makeEntry.induct
    (fun b blk off entries i =>
      semME b blk off entries i (makeEntry b blk off entries i))
    (fun b blk off vOff entries i =>
      semAux b blk off vOff entries i (makeEntryAux b blk off vOff entries i))
    (fun b blk lo bsz entries i =>
      semPG b blk lo bsz entries i (processGroups b blk lo bsz entries i))
    semCase1 semCase2 semCase3 semCase4 semCase5 semCase6 semCase7 semCase8
    semCase9 semCase10 semCase11 semCase12 b blk off entries i

/-! ## Unfolding `NewMap` -/

/-- The initial builder state of `NewMap`, after the root allocation. -/
def rootBuilder (T : Type) : mapBuilder T := allocateNodes ⟨[], [], 0⟩ 1

theorem rootBuilder_wfb {T : Type} : WFB (rootBuilder T) := rfl

theorem rootBuilder_invb {T : Type} : INVB (rootBuilder T) := by
  intro nd hmem
  have : nd = zeroNode := by
    simpa [rootBuilder, flatB, allocateNodes] using hmem
  subst this
  simp [zeroNode, rootBuilder, allocateNodes]

theorem newMap_some_nil {T : Type} {entries : List (MapEntry T)} {m : Map T}
    (hs : sortEntries entries = []) (h : NewMap entries = some m) :
    m = ⟨[zeroNode], []⟩ := by
  rw [NewMap, hs] at h
  exact (Option.some_inj.mp h).symm

theorem newMap_some_cons {T : Type} {entries : List (MapEntry T)} {m : Map T}
    {e : MapEntry T} {l : List (MapEntry T)}
    (hs : sortEntries entries = e :: l) (h : NewMap entries = some m) :
    ∃ b2, makeEntry (rootBuilder T) 0 0 (e :: l) 0 = some b2 ∧
      m.store = flatB b2 ∧ m.values = b2.values := by
  rw [NewMap, hs] at h
  rw [show (allocateNodes (⟨[], [], 0⟩ : mapBuilder T) 1) = rootBuilder T
    from rfl] at h
  dsimp only at h
  cases hm : makeEntry (rootBuilder T) 0 0 (e :: l) 0 with
  | none =>
    rw [hm] at h
    exact absurd h (by simp)
  | some b2 =>
    rw [hm] at h
    obtain rfl := (Option.some_inj.mp h).symm
    exact ⟨b2, rfl, rfl, rfl⟩

/-! ## Master lookup lemmas for built structures -/

theorem indexStringLoop_eq_bytesLoop {T : Type} (m : Map T) (s : List Nat) :
    ∀ n i bv, s.length - i ≤ n →
      indexStringLoop m s i bv = indexBytesLoop m bv (s.drop i) := by
  intro n
  induction n with
  | zero =>
    intro i bv h
    have hge : ¬ i < s.length := by omega
    rw [indexStringLoop, dif_neg hge, List.drop_eq_nil_iff.mpr (by omega),
      indexBytesLoop]
  | succ n ih =>
    intro i bv h
    by_cases hi : i < s.length
    · rw [indexStringLoop, dif_pos hi, List.drop_eq_getElem_cons hi,
        indexBytesLoop]
      simp only
      by_cases h1 : s[i] < bv.nextOffset
      · simp [h1]
      · simp only [h1, if_false]
        by_cases h2 : bv.nextLen ≤ s[i] - bv.nextOffset
        · simp [h2]
        · simp only [h2, if_false]
          cases m.store[(bv.nextLo + (s[i] - bv.nextOffset)) % uintMod]? with
          | none => rfl
          | some bv2 => exact ih (i + 1) bv2 (by omega)
    · rw [indexStringLoop, dif_neg hi, List.drop_eq_nil_iff.mpr (by omega),
        indexBytesLoop]

theorem IndexString_eq_IndexBytes {T : Type} (m : Map T) (s : List Nat) :
    IndexString m s = IndexBytes m s := by
  rw [IndexString, IndexBytes]
  cases m.store[0]? with
  | none => rfl
  | some bv =>
    simpa using indexStringLoop_eq_bytesLoop m s s.length 0 bv (by omega)

theorem AtIndex_zero {T : Type} (m : Map T) (z : T) : AtIndex m z 0 = (z, false) := by
  rw [AtIndex, if_neg]
  rintro ⟨hc, -⟩
  exact hc rfl

theorem AtIndex_hit {T : Type} (m : Map T) (z : T) {r : Nat} {v : T}
    (hr : r ≠ 0) (hlt : r - 1 < m.values.length)
    (hcap : m.values.length < uintMod) (hv : m.values[r - 1]? = some v) :
    AtIndex m z r = (v, true) := by
  rw [AtIndex, if_pos ⟨hr, by rw [Nat.mod_eq_of_lt hcap]; exact hlt⟩,
    List.getD_eq_getElem?_getD, hv]
  rfl

/-- Lookups in the structure built from an empty batch reject every key. -/
theorem zeroRoot_lookups {T : Type} (z : T) (s : List Nat) :
    LookupString (⟨[zeroNode], []⟩ : Map T) z s = some (z, false) ∧
      LookupBytes (⟨[zeroNode], []⟩ : Map T) z s = some (z, false) := by
  constructor
  · have hix : IndexString (⟨[zeroNode], []⟩ : Map T) s = some 0 := by
      rw [IndexString]
      simp only [List.getElem?_cons_zero]
      rw [indexStringLoop]
      by_cases hc : 0 < s.length
      · rw [dif_pos hc]
        simp [zeroNode]
      · rw [dif_neg hc]
        simp [zeroNode]
    rw [LookupString, hix, Option.map_some']
    rw [AtIndex_zero]
  · have hix : IndexBytes (⟨[zeroNode], []⟩ : Map T) s = some 0 := by
      rw [IndexBytes]
      simp only [List.getElem?_cons_zero]
      cases s with
      | nil => simp [indexBytesLoop, zeroNode]
      | cons b rest => simp [indexBytesLoop, zeroNode]
    rw [LookupBytes, hix, Option.map_some']
    rw [AtIndex_zero]

/-- Round-trip for every built structure: a batch entry's key looks up its
value. -/
theorem newMap_lookup_mem {T : Type} {entries : List (MapEntry T)} {m : Map T}
    (h : NewMap entries = some m)
    (hbytes : ∀ e ∈ entries, ∀ x ∈ e.Key, x < 256)
    (hScap : m.store.length < uintMod) (hVcap : m.values.length < uintMod)
    {k : List Nat} {v : T} (hmem : (⟨k, v⟩ : MapEntry T) ∈ entries) (z : T) :
    LookupString m z k = some (v, true) ∧ LookupBytes m z k = some (v, true) := by
  have hperm := sortEntries_perm entries
  cases hs : sortEntries entries with
  | nil =>
    exfalso
    rw [hs] at hperm
    have hlen := hperm.length_eq
    simp at hlen
    have hnil : entries = [] := List.eq_nil_of_length_eq_zero hlen.symm
    rw [hnil] at hmem
    simp at hmem
  | cons e l =>
    obtain ⟨b2, hm, hstore, hvalues⟩ := newMap_some_cons hs h
    have hsorted0 : (e :: l).Pairwise (suffLe 0) := by
      apply pairwise_suffLe_zero
      rw [← hs]
      exact sortEntries_pairwise entries
    have hsub : ∀ e2 ∈ e :: l, e2 ∈ entries := by
      intro e2 he2
      exact hperm.subset (by rw [hs]; exact he2)
    have hbytes2 : ∀ e2 ∈ e :: l, ∀ x ∈ e2.Key, x < 256 :=
      fun e2 he2 => hbytes e2 (hsub e2 he2)
    have hlen2 : ∀ e2 ∈ e :: l, 0 ≤ e2.Key.length := fun _ _ => Nat.zero_le _
    have hScap2 : m.store.length < uintMod := hScap
    rw [hstore] at hScap2
    have hsem := makeEntry_sem (rootBuilder T) 0 0 (e :: l) 0 b2 hm
      rootBuilder_wfb hsorted0 hlen2 hbytes2 (flatB b2) hScap2
      (fun g _ => rfl) m.values hVcap ⟨[], by rw [hvalues, List.append_nil]⟩
    obtain ⟨hpos, -⟩ := hsem
    have hmemS : (⟨k, v⟩ : MapEntry T) ∈ e :: l := by
      have := hperm.symm.subset hmem
      rw [hs] at this
      exact this
    obtain ⟨nd, r0, hnd, hlook, hr0, hr1, hr2⟩ := hpos _ hmemS
    rw [show blockStart (rootBuilder T) 0 + 0 = 0 from rfl] at hnd
    rw [List.drop_zero] at hlook
    rw [← hstore] at hnd hlook
    have hidxB : IndexBytes m k = some r0 := by
      rw [IndexBytes, hnd]
      dsimp only
      rw [indexBytesLoop_eq_lookFrom]
      exact hlook
    have hAt : AtIndex m z r0 = (v, true) := AtIndex_hit m z hr0 hr1 hVcap hr2
    constructor
    · rw [LookupString, IndexString_eq_IndexBytes, hidxB, Option.map_some', hAt]
    · rw [LookupBytes, hidxB, Option.map_some', hAt]

/-- Negative lookup for every built structure: a non-key is rejected. -/
theorem newMap_lookup_not_mem {T : Type} {entries : List (MapEntry T)}
    {m : Map T} (h : NewMap entries = some m)
    (hbytes : ∀ e ∈ entries, ∀ x ∈ e.Key, x < 256)
    (hScap : m.store.length < uintMod) (hVcap : m.values.length < uintMod)
    {k : List Nat} (hk : ∀ x ∈ k, x < 256)
    (hno : ∀ e ∈ entries, e.Key ≠ k) (z : T) :
    LookupString m z k = some (z, false) ∧ LookupBytes m z k = some (z, false) := by
  have hperm := sortEntries_perm entries
  cases hs : sortEntries entries with
  | nil =>
    obtain rfl := newMap_some_nil hs h
    exact zeroRoot_lookups z k
  | cons e l =>
    obtain ⟨b2, hm, hstore, hvalues⟩ := newMap_some_cons hs h
    have hsorted0 : (e :: l).Pairwise (suffLe 0) := by
      apply pairwise_suffLe_zero
      rw [← hs]
      exact sortEntries_pairwise entries
    have hsub : ∀ e2 ∈ e :: l, e2 ∈ entries := by
      intro e2 he2
      exact hperm.subset (by rw [hs]; exact he2)
    have hbytes2 : ∀ e2 ∈ e :: l, ∀ x ∈ e2.Key, x < 256 :=
      fun e2 he2 => hbytes e2 (hsub e2 he2)
    have hlen2 : ∀ e2 ∈ e :: l, 0 ≤ e2.Key.length := fun _ _ => Nat.zero_le _
    have hScap2 : m.store.length < uintMod := hScap
    rw [hstore] at hScap2
    have hsem := makeEntry_sem (rootBuilder T) 0 0 (e :: l) 0 b2 hm
      rootBuilder_wfb hsorted0 hlen2 hbytes2 (flatB b2) hScap2
      (fun g _ => rfl) m.values hVcap ⟨[], by rw [hvalues, List.append_nil]⟩
    obtain ⟨-, hneg⟩ := hsem
    have hno2 : ∀ e2 ∈ e :: l, e2.Key.drop 0 ≠ k := by
      intro e2 he2
      rw [List.drop_zero]
      exact hno e2 (hsub e2 he2)
    obtain ⟨nd, hnd, hlook⟩ := hneg k hk hno2
    rw [show blockStart (rootBuilder T) 0 + 0 = 0 from rfl] at hnd
    rw [← hstore] at hnd hlook
    have hidxB : IndexBytes m k = some 0 := by
      rw [IndexBytes, hnd]
      dsimp only
      rw [indexBytesLoop_eq_lookFrom]
      exact hlook
    constructor
    · rw [LookupString, IndexString_eq_IndexBytes, hidxB, Option.map_some',
        AtIndex_zero]
    · rw [LookupBytes, hidxB, Option.map_some', AtIndex_zero]

/-! ## Child ranges stay in bounds (C9) -/

/-- C9: in every structure `NewMap` actually produces, every node with
children (`nextLen > 0`) has its whole child range
`[nextLo, nextLo + nextLen)` inside the bounds of the final flattened `store`
— block-wise allocation followed by flattening preserves the global indices
recorded during recursion — so a lookup over a built structure never indexes
the node array out of bounds. -/
theorem newMap_child_ranges_in_bounds {T : Type} (entries : List (MapEntry T))
    (m : Map T) (h : NewMap entries = some m) :
    ∀ nd ∈ m.store, 0 < nd.nextLen → nd.nextLo + nd.nextLen ≤ m.store.length := by
  intro nd hmem hpos
  cases hs : sortEntries entries with
  | nil =>
    obtain rfl := newMap_some_nil hs h
    have : nd = zeroNode := by simpa using hmem
    subst this
    simp [zeroNode] at hpos
  | cons e l =>
    obtain ⟨b2, hm, hstore, -⟩ := newMap_some_cons hs h
    obtain ⟨hstep, -, hinv⟩ :=
      (makeEntry_frame (rootBuilder T) 0 0 (e :: l) 0) b2 hm rootBuilder_wfb
    have hWF2 : WFB b2 := hstep.wfb rootBuilder_wfb
    rw [hstore] at hmem ⊢
    have := hinv rootBuilder_invb nd hmem
    rw [hWF2] at this
    exact this

/-- Witness for `newMap_child_ranges_in_bounds`: the structure built from the
one-entry batch `[("a", 5)]` — its root node has `nextLo = 1`, `nextLen = 1`
and the range `[1, 2)` lies inside the two-node store. -/
theorem newMap_child_ranges_in_bounds_witness :
    (⟨1, 1, 97, 0⟩ : mapInternalNode).nextLo +
        (⟨1, 1, 97, 0⟩ : mapInternalNode).nextLen ≤
      (⟨[⟨1, 1, 97, 0⟩, ⟨0, 0, 0, 1⟩], [5]⟩ : Map Nat).store.length :=
  newMap_child_ranges_in_bounds [⟨[97], 5⟩] ⟨[⟨1, 1, 97, 0⟩, ⟨0, 0, 0, 1⟩], [5]⟩
    (by simp [NewMap, sortEntries, insertEntry, makeEntry, makeEntryAux,
      processGroups, allocateNodes, setNode, toMap, byteSub, uintMod, keyLt,
      zeroNode])
    ⟨1, 1, 97, 0⟩ (by simp) (by decide)

/-! ## Equivalence of the two lookup entry points (C4) -/

/-- C4: for every structure `m`, every zero value `z` and every byte sequence
`s`, `LookupString` returns exactly the same `(value, found)` result as
`LookupBytes` on the same bytes: the two query entry points are the same
function on equal underlying bytes. -/
theorem lookupString_eq_lookupBytes {T : Type} (m : Map T) (z : T)
    (s : List Nat) : LookupString m z s = LookupBytes m z s := by
  rw [LookupString, LookupBytes, IndexString_eq_IndexBytes]

/-! ## Lookup through an unbound handle (C3) -/

/-- C3 (evidence of the code bug): on the zero-value `Map` (both slices nil,
exactly what an unconstructed handle holds) the very first step of
`IndexString`/`IndexBytes` — Go's `bv := &m.store[0]` — indexes an empty
slice, which is a runtime panic (`none`), for `LookupString "foo"` and
`LookupBytes [1,2,3]` alike; the lookups do not return `found = false` as the
claim (and the repository's own `TestNilMapLookup`) expects. -/
theorem zero_value_map_lookup_faults :
    LookupString (⟨[], []⟩ : Map Nat) 0 [102, 111, 111] = none ∧
      LookupBytes (⟨[], []⟩ : Map Nat) 0 [1, 2, 3] = none ∧
      IndexString (⟨[], []⟩ : Map Nat) [102, 111, 111] = none ∧
      IndexBytes (⟨[], []⟩ : Map Nat) [1, 2, 3] = none :=
  ⟨rfl, rfl, rfl, rfl⟩

/-! ## The in-place sort performed by `NewMap` (C6) -/

/-- C6 (counterexample): `NewMap` is not free of side effects on its input:
`sort.Slice` reorders the caller's `entries` slice in place. For the batch
`[("b",1), ("a",2)]` the slice observed by the caller after `NewMap` returns
is `[("a",2), ("b",1)]`, not the original order. -/
theorem newMap_reorders_callers_slice :
    entriesAfterNewMap [⟨[98], 1⟩, ⟨[97], 2⟩] = [⟨[97], 2⟩, ⟨[98], (1 : Nat)⟩] ∧
      entriesAfterNewMap [⟨[98], 1⟩, ⟨[97], 2⟩] ≠ [⟨[98], (1 : Nat)⟩, ⟨[97], 2⟩] := by
  constructor
  · rfl
  · decide

/-- C6 (amended): the only side effect of `NewMap` on the caller's `entries`
slice is the in-place sort: afterwards the slice holds exactly the same
key/value pairs, reordered (a permutation of the original); no pair is added,
dropped or modified. -/
theorem entriesAfterNewMap_perm {T : Type} (entries : List (MapEntry T)) :
    (entriesAfterNewMap entries).Perm entries :=
  sortEntries_perm entries

/-! ## Building from an empty batch (C7) -/

/-- C7: building from the empty (nil) batch cannot fail and yields exactly one
root node — the zero node, with `nextLen = 0` (no children) and
`valueOffset = 0` (no value) — and an empty value array; on that structure
both lookups return `(zero value, false)` for every key, including the empty
key, and never fault. -/
theorem newMap_empty_batch {T : Type} (z : T) (s : List Nat) :
    NewMap ([] : List (MapEntry T)) = some ⟨[zeroNode], []⟩ ∧
      LookupString (⟨[zeroNode], []⟩ : Map T) z s = some (z, false) ∧
      LookupBytes (⟨[zeroNode], []⟩ : Map T) z s = some (z, false) := by
  refine ⟨rfl, ?_, ?_⟩
  · have : IndexString (⟨[zeroNode], []⟩ : Map T) s = some 0 := by
      rw [IndexString]
      simp only [List.getElem?_cons_zero]
      rw [indexStringLoop]
      by_cases h : 0 < s.length
      · rw [dif_pos h]
        simp [zeroNode]
      · rw [dif_neg h]
        simp [zeroNode]
    rw [LookupString, this]
    simp [AtIndex]
  · have : IndexBytes (⟨[zeroNode], []⟩ : Map T) s = some 0 := by
      rw [IndexBytes]
      simp only [List.getElem?_cons_zero]
      cases s with
      | nil => simp [indexBytesLoop, zeroNode]
      | cons b rest => simp [indexBytesLoop, zeroNode]
    rw [LookupBytes, this]
    simp [AtIndex]

/-! ## `AtIndex` (C10) -/

/-- C10 (counterexample): `AtIndex` compares `index - 1` against
`Uint(len(m.values))`, the length truncated to 32 bits. On a structure whose
value array has exactly `2 ^ 32` elements, the truncated length is `0`, so
`AtIndex 1` returns `(zero, false)` even though `1 ≤ index ≤ length` and the
claim demands `(values[0], true)`. -/
theorem atIndex_truncates_length :
    AtIndex (⟨[], List.replicate (2 ^ 32) (7 : Nat)⟩ : Map Nat) 0 1 = (0, false) ∧
      (1 : Nat) ≤ (List.replicate (2 ^ 32) (7 : Nat)).length ∧
      AtIndex (⟨[], List.replicate (2 ^ 32) (7 : Nat)⟩ : Map Nat) 0 1 ≠
        ((List.replicate (2 ^ 32) (7 : Nat)).getD 0 0, true) := by
  have hproj : ((⟨[], List.replicate (2 ^ 32) (7 : Nat)⟩ : Map Nat)).values =
      List.replicate (2 ^ 32) (7 : Nat) := rfl
  have hmod : ((⟨[], List.replicate (2 ^ 32) (7 : Nat)⟩ : Map Nat)).values.length %
      uintMod = 0 := by
    rw [hproj, List.length_replicate]
    exact Nat.mod_self _
  have h1 : AtIndex (⟨[], List.replicate (2 ^ 32) (7 : Nat)⟩ : Map Nat) 0 1 =
      (0, false) := by
    rw [AtIndex, if_neg]
    rintro ⟨-, hc⟩
    rw [hmod] at hc
    omega
  refine ⟨h1, ?_, ?_⟩
  · rw [List.length_replicate]
    exact Nat.two_pow_pos 32
  · rw [h1]
    intro hc
    exact Bool.noConfusion (congrArg Prod.snd hc)

/-- C10 (amended): `AtIndex` is total and never faults; it returns
`(values[i-1], true)` when `1 ≤ i ≤ length of the value array` provided that
length fits in 32 bits (`< 2 ^ 32`, always the case in practice), and returns
`(zero value, false)` otherwise — in particular for `i = 0` and for every
`i > length`, with no size proviso. -/
theorem atIndex_spec {T : Type} (m : Map T) (z : T) (i : Nat) :
    (m.values.length < uintMod → 1 ≤ i → i ≤ m.values.length →
      AtIndex m z i = (m.values.getD (i - 1) z, true)) ∧
    (i = 0 ∨ m.values.length < i → AtIndex m z i = (z, false)) := by
  constructor
  · intro hcap h1 h2
    rw [AtIndex, if_pos]
    exact ⟨by omega, by rw [Nat.mod_eq_of_lt hcap]; omega⟩
  · intro h
    rw [AtIndex, if_neg]
    rintro ⟨h1, h2⟩
    have := Nat.mod_le m.values.length uintMod
    omega

/-- Witness for `atIndex_spec` at a concrete input: a two-element value array,
indices 2 (hit) and 0 (miss). -/
theorem atIndex_spec_witness :
    AtIndex (⟨[], [7, 8]⟩ : Map Nat) 0 2 = (8, true) ∧
      AtIndex (⟨[], [7, 8]⟩ : Map Nat) 0 0 = (0, false) :=
  ⟨(atIndex_spec (⟨[], [7, 8]⟩ : Map Nat) 0 2).1 (by decide) (by decide) (by decide),
    (atIndex_spec (⟨[], [7, 8]⟩ : Map Nat) 0 0).2 (Or.inl rfl)⟩

/-! ## Faults of the builder on specific batches (C1, C2, C5) -/

set_option maxRecDepth 8192 in
/-- C1 (counterexample): the batch `[("\x00", 1), ("\xff", 2)]` has
pairwise-distinct keys, yet `NewMap` does not build a structure at all: the
root's child span `0xff - 0x00 + 1` wraps to `0` in the 8-bit `nextLen`
field, a zero-length child block is allocated, and the recursive call indexes
it out of range — a panic. Hence "build then lookup returns `(value, true)`"
fails for this batch. -/
theorem newMap_full_span_faults :
    NewMap [⟨[0], (1 : Nat)⟩, ⟨[255], 2⟩] = none := by
  simp [NewMap, sortEntries, insertEntry, makeEntry, makeEntryAux, processGroups,
    allocateNodes, setNode, toMap, byteSub, uintMod, keyLt, zeroNode]

set_option maxRecDepth 8192 in
/-- C2 (counterexample): for the batch `[("a", 1), ("a", 2)]` (a duplicate
key) and the non-key `"b"`, the claim demands `LookupString "b"` return
`found = false` on the built structure; but `NewMap` panics — after consuming
the first `"a"` as terminal it reads byte 1 of the second key `"a"`, which is
out of range — so no structure is built and no lookup returns `false`. -/
theorem newMap_duplicate_key_faults :
    NewMap [⟨[97], (1 : Nat)⟩, ⟨[97], 2⟩] = none := by
  simp [NewMap, sortEntries, insertEntry, makeEntry, makeEntryAux, processGroups,
    allocateNodes, setNode, toMap, byteSub, uintMod, keyLt, zeroNode]

set_option maxRecDepth 8192 in
/-- C5 (evidence of the code bug): a node whose next-bytes span the full byte
range has `(max - min) + 1 = 256`, which the 8-bit computation
`entries[last].Key[i] - nextOffset + 1` wraps to `0`, not `256`; the builder
then allocates zero child slots and faults writing the first child. Shown at
the batch `[("a\x00", 1), ("a\xff", 2)]`, whose second-level node spans
`0x00..0xff`. -/
theorem newMap_span256_wraps_and_faults :
    (byteSub 255 0 + 1) % 256 = 0 ∧
      NewMap [⟨[97, 0], (1 : Nat)⟩, ⟨[97, 255], 2⟩] = none := by
  constructor
  · rfl
  · simp [NewMap, sortEntries, insertEntry, makeEntry, makeEntryAux, processGroups,
      allocateNodes, setNode, toMap, byteSub, uintMod, keyLt, zeroNode]

/-! ## Round-trip, negative lookups and the empty key (C1, C2, C8) -/

/-- C1 (amended): for every batch with pairwise-distinct keys on which the
build actually succeeds (`NewMap` returns a structure rather than faulting),
with genuine byte keys and the built arrays below `2^32` elements, every
`(key, value)` pair of the batch is found again: `LookupString` and
`LookupBytes` on the key both return `(value, true)`. -/
theorem newMap_roundtrip {T : Type} (entries : List (MapEntry T)) (m : Map T)
    (_hdist : entries.Pairwise (fun a c => a.Key ≠ c.Key))
    (hbuild : NewMap entries = some m)
    (hbytes : ∀ e ∈ entries, ∀ x ∈ e.Key, x < 256)
    (hScap : m.store.length < uintMod) (hVcap : m.values.length < uintMod)
    (k : List Nat) (v : T) (hmem : (⟨k, v⟩ : MapEntry T) ∈ entries) (z : T) :
    LookupString m z k = some (v, true) ∧ LookupBytes m z k = some (v, true) :=
  newMap_lookup_mem hbuild hbytes hScap hVcap hmem z

set_option maxRecDepth 8192 in
theorem newMap_roundtrip_witness :
    LookupString (⟨[⟨1, 1, 97, 0⟩, ⟨0, 0, 0, 1⟩], [5]⟩ : Map Nat) 0 [97] =
        some (5, true) ∧
      LookupBytes (⟨[⟨1, 1, 97, 0⟩, ⟨0, 0, 0, 1⟩], [5]⟩ : Map Nat) 0 [97] =
        some (5, true) :=
  newMap_roundtrip [⟨[97], 5⟩] ⟨[⟨1, 1, 97, 0⟩, ⟨0, 0, 0, 1⟩], [5]⟩
    (by simp)
    (by simp [NewMap, sortEntries, insertEntry, makeEntry, makeEntryAux,
      processGroups, allocateNodes, setNode, toMap, byteSub, uintMod, keyLt,
      zeroNode])
    (by decide) (by decide) (by decide) [97] 5 (by simp) 0

/-- C2 (amended): for every batch on which the build actually succeeds
(`NewMap` returns a structure rather than faulting), with genuine byte keys
and the built arrays below `2^32` elements, every byte sequence that is not
the key of any entry — bytes outside every child range, strict prefixes of
real keys, proper extensions of real keys, or any other non-key — is
rejected: both lookups return `(zero value, false)`. -/
theorem newMap_negative_lookup {T : Type} (entries : List (MapEntry T))
    (m : Map T) (hbuild : NewMap entries = some m)
    (hbytes : ∀ e ∈ entries, ∀ x ∈ e.Key, x < 256)
    (hScap : m.store.length < uintMod) (hVcap : m.values.length < uintMod)
    (k : List Nat) (hk : ∀ x ∈ k, x < 256)
    (hno : ∀ e ∈ entries, e.Key ≠ k) (z : T) :
    LookupString m z k = some (z, false) ∧ LookupBytes m z k = some (z, false) :=
  newMap_lookup_not_mem hbuild hbytes hScap hVcap hk hno z

set_option maxRecDepth 8192 in
theorem newMap_negative_lookup_witness :
    LookupString (⟨[⟨1, 1, 97, 0⟩, ⟨0, 0, 0, 1⟩], [5]⟩ : Map Nat) 0 [98] =
        some (0, false) ∧
      LookupBytes (⟨[⟨1, 1, 97, 0⟩, ⟨0, 0, 0, 1⟩], [5]⟩ : Map Nat) 0 [98] =
        some (0, false) :=
  newMap_negative_lookup [⟨[97], 5⟩] ⟨[⟨1, 1, 97, 0⟩, ⟨0, 0, 0, 1⟩], [5]⟩
    (by simp [NewMap, sortEntries, insertEntry, makeEntry, makeEntryAux,
      processGroups, allocateNodes, setNode, toMap, byteSub, uintMod, keyLt,
      zeroNode])
    (by decide) (by decide) (by decide) [98] (by decide) (by decide) 0

/-- C8: if the batch contains the empty key with value `v` and no duplicate
of it, and the build succeeds with genuine byte keys and the built arrays
below `2^32` elements, then looking up the empty string returns `(v, true)`:
the empty key sorts first, so the root node's value slot is assigned to `v`
before any children are built. -/
theorem newMap_empty_key {T : Type} (entries : List (MapEntry T)) (m : Map T)
    (v : T) (hmem : (⟨[], v⟩ : MapEntry T) ∈ entries)
    (_huniq : ∀ e ∈ entries, e.Key = [] → e.Value = v)
    (hbuild : NewMap entries = some m)
    (hbytes : ∀ e ∈ entries, ∀ x ∈ e.Key, x < 256)
    (hScap : m.store.length < uintMod) (hVcap : m.values.length < uintMod)
    (z : T) : LookupString m z [] = some (v, true) :=
  (newMap_lookup_mem hbuild hbytes hScap hVcap hmem z).1

set_option maxRecDepth 8192 in
theorem newMap_empty_key_witness :
    LookupString (⟨[⟨1, 1, 97, 1⟩, ⟨0, 0, 0, 2⟩], [7, 5]⟩ : Map Nat) 0 [] =
      some (7, true) :=
  newMap_empty_key [⟨[], 7⟩, ⟨[97], 5⟩] ⟨[⟨1, 1, 97, 1⟩, ⟨0, 0, 0, 2⟩], [7, 5]⟩
    7 (by simp) (by decide)
    (by simp [NewMap, sortEntries, insertEntry, makeEntry, makeEntryAux,
      processGroups, allocateNodes, setNode, toMap, byteSub, uintMod, keyLt,
      zeroNode])
    (by decide) (by decide) (by decide) 0

end FastStringMap
